import Mathlib

/-!
A verification development for the gddo (GoPkgDoc) repository.

Each Go function relevant to the verified claims is shallowly embedded as an
executable Lean definition, translated from the source:

* `src/database/database.go` — the Redis-script driven document store
  (`putScript`, `deleteScript`, `Database.Block`, `Database.Delete`);
* `src/index/index.go` — the in-memory inverted index (`postingList`,
  `makeTerm`, `addPackageTerms`, `Index.Put`, `Index.Query`);
* `src/doc/doc.go` — `ValidRemotePath` and its TLD/host tables;
* `src/doc/get.go` — `Get`, `getStatic` and the service dispatch table;
* `src/gddo-server/crawl.go` — `crawlDoc` and the background `crawl` loop;
* `src/gddo-server/main.go` — `getDoc` with its crawl/timeout race;
* `src/doc/method_set.go` — the canonical method-signature writer
  (`writeFunc`, `writeParams`, `writeNode`, `writeStruct`, `writeInterface`);
* the annotation pairing loop of `printDecl` (doc package).

Side-effecting collaborators (Redis, the HTTP client, go/ast resolution, the
go scanner) are embedded as explicit state or oracle parameters, as noted at
each definition.
-/

namespace Gddo

/-! ### Generic association-list helpers (model of Redis GET/SET on keys) -/

/-- Lookup in an association list (first binding wins), as Redis `GET`. -/
def getA {α β : Type} [DecidableEq α] : List (α × β) → α → Option β
  | [], _ => none
  | (k, v) :: t, k' => if k = k' then some v else getA t k'

/-- Replace-or-insert in an association list, as Redis `SET`/`HMSET`. -/
def setA {α β : Type} [DecidableEq α] : List (α × β) → α → β → List (α × β)
  | [], k, v => [(k, v)]
  | (k', v') :: t, k, v =>
    if k' = k then (k, v) :: t else (k', v') :: setA t k v

theorem getA_setA_self {α β : Type} [DecidableEq α] (l : List (α × β)) (k : α) (v : β) :
    getA (setA l k v) k = some v := by
  induction l with
  | nil => simp [getA, setA]
  | cons h t ih =>
    obtain ⟨k', v'⟩ := h
    by_cases hk : k' = k <;> simp [getA, setA, hk, ih]

theorem getA_setA_ne {α β : Type} [DecidableEq α] (l : List (α × β)) (k k' : α) (v : β)
    (hne : k ≠ k') : getA (setA l k v) k' = getA l k' := by
  induction l with
  | nil => simp [getA, setA, hne]
  | cons hd t ih =>
    obtain ⟨k₀, v₀⟩ := hd
    by_cases hk : k₀ = k
    · subst hk; simp [setA, getA, hne]
    · simp [setA, getA, hk, ih]

theorem mem_setA {α β : Type} [DecidableEq α] {l : List (α × β)} {k : α} {v : β}
    {p : α × β} (hp : p ∈ setA l k v) : p = (k, v) ∨ p ∈ l := by
  induction l with
  | nil => simpa [setA] using hp
  | cons hd t ih =>
    obtain ⟨k₀, v₀⟩ := hd
    by_cases hk : k₀ = k
    · subst hk
      simp only [setA, if_pos rfl] at hp
      rcases List.mem_cons.mp hp with h | h
      · exact Or.inl h
      · exact Or.inr (List.mem_cons_of_mem _ h)
    · simp only [setA, if_neg hk] at hp
      rcases List.mem_cons.mp hp with h | h
      · exact Or.inr (by simp [h])
      · rcases ih h with h' | h'
        · exact Or.inl h'
        · exact Or.inr (List.mem_cons_of_mem _ h')

theorem getA_eq_some_mem {α β : Type} [DecidableEq α] {l : List (α × β)} {k : α} {v : β}
    (h : getA l k = some v) : (k, v) ∈ l := by
  induction l with
  | nil => simp [getA] at h
  | cons hd t ih =>
    obtain ⟨k₀, v₀⟩ := hd
    by_cases hk : k₀ = k
    · subst hk
      simp [getA] at h
      simp [h]
    · simp only [getA, if_neg hk] at h
      exact List.mem_cons_of_mem _ (ih h)

theorem getA_eq_none_not_mem {α β : Type} [DecidableEq α] {l : List (α × β)} {k : α}
    (h : getA l k = none) (v : β) : (k, v) ∉ l := by
  induction l with
  | nil => simp
  | cons hd t ih =>
    obtain ⟨k₀, v₀⟩ := hd
    by_cases hk : k₀ = k
    · subst hk; simp [getA] at h
    · simp only [getA, if_neg hk] at h
      intro hmem
      rcases List.mem_cons.mp hmem with h' | h'
      · exact hk (congrArg Prod.fst h').symm
      · exact ih h h'

theorem mem_getA_of_nodup {α β : Type} [DecidableEq α] {l : List (α × β)} {k : α} {v : β}
    (hnd : (l.map Prod.fst).Nodup) (h : (k, v) ∈ l) : getA l k = some v := by
  induction l with
  | nil => simp at h
  | cons hd t ih =>
    obtain ⟨k₀, v₀⟩ := hd
    simp only [List.map_cons, List.nodup_cons] at hnd
    rcases List.mem_cons.mp h with h' | h'
    · injection h' with h1 h2
      subst h1; subst h2
      simp [getA]
    · have hk : k₀ ≠ k := by
        intro he; subst he
        exact hnd.1 (List.mem_map.mpr ⟨(k₀, v), h', rfl⟩)
      simp [getA, hk, ih hnd.2 h']

/-! ### The Redis document store (`src/database/database.go`)

The store state collects the Redis keys used by the database package:
`id:<path>` (string), `pkg:<id>` (hash), `index:<term>` (sets, represented as
the list of (term, id) membership pairs), the `crawl` zset and the `block`
set.  The gob blob field is carried as an opaque string. -/

/-- The `pkg:<id>` hash fields written by `putScript` (the `gob` field is an
opaque payload string). -/
structure PkgRec where
  path : String
  synopsis : String
  rank : String
  gob : String
  terms : String
  etag : String
  kind : String
deriving DecidableEq, Repr

/-- The Redis keyspace of the database package. -/
structure Store where
  maxPackageId : Nat
  ids : List (String × Nat)
  pkgs : List (Nat × PkgRec)
  index : List (String × Nat)
  crawl : List (Nat × Int)
  blocked : List String
deriving DecidableEq, Repr

/-- The empty Redis keyspace. -/
def store0 : Store := ⟨0, [], [], [], [], []⟩

/-- Go `strings.HasPrefix` on character lists (first argument: the prefix). -/
def hasPrefixL : List Char → List Char → Bool
  | [], _ => true
  | _ :: _, [] => false
  | a :: as, b :: bs => a = b && hasPrefixL as bs

/-- Go `strings.HasPrefix(s, pre)`. -/
def goHasPrefix (s pre : String) : Bool :=
  hasPrefixL pre.toList s.toList

/-- Collect the maximal nonempty runs of non-space characters; `acc` holds
the current run reversed. -/
def termRuns : List Char → List Char → List String
  | [], acc => if acc = [] then [] else [String.mk acc.reverse]
  | c :: cs, acc =>
    if c = ' ' then
      (if acc = [] then termRuns cs [] else String.mk acc.reverse :: termRuns cs [])
    else termRuns cs (c :: acc)

/-- Lua `string.gmatch(s, '([^ ]+)')`: the maximal nonempty runs of
non-space characters of `s`. -/
def splitTerms (s : String) : List String :=
  termRuns s.toList []

/-- The terms of record `pkg:<id>`: `HGET pkg:<id> terms or ''` split as by
`gmatch` (missing record or field reads as the empty string). -/
def storedTerms (st : Store) (id : Nat) : List String :=
  match getA st.pkgs id with
  | some r => splitTerms r.terms
  | none => []

/-- The per-term counter built by `putScript`: `1` for each stored term, plus
`2` for every occurrence in the incoming terms string. -/
def updVal (oldT newT : List String) (t : String) : Nat :=
  (if t ∈ oldT then 1 else 0) + 2 * newT.count t

/-- One step of `putScript`'s `for term, x in pairs(update)` loop:
`SREM index:<term> id` when `x == 1`, `SADD` when `x == 2`. -/
def putIndexStep (oldT newT : List String) (id : Nat) (idx : List (String × Nat))
    (t : String) : List (String × Nat) :=
  let x := updVal oldT newT t
  if x = 1 then idx.filter (fun p => p ≠ (t, id))
  else if x = 2 then (if (t, id) ∈ idx then idx else (t, id) :: idx)
  else idx

/-- `putScript` (src/database/database.go lines 131-170): assign or reuse the
id for `path`, diff the stored terms against the incoming terms string,
maintain the `index:<term>` sets, advance the `crawl` zset monotonically and
write the `pkg:<id>` hash.  The Lua `pairs(update)` iteration is realised as a
fold over the distinct touched terms; all iteration orders act identically on
the membership pairs since distinct terms touch distinct pairs. -/
def putScript (st : Store) (path synopsis rank gob terms etag kind : String)
    (crawl : Int) : Store :=
  let idMax : Nat × Nat :=
    match getA st.ids path with
    | some id => (id, st.maxPackageId)
    | none => (st.maxPackageId + 1, st.maxPackageId + 1)
  let id := idMax.1
  let ids :=
    match getA st.ids path with
    | some _ => st.ids
    | none => setA st.ids path id
  let oldT := storedTerms st id
  let newT := splitTerms terms
  let index := ((oldT ++ newT).dedup).foldl (putIndexStep oldT newT id) st.index
  let crawlZ :=
    match getA st.crawl id with
    | none => setA st.crawl id crawl
    | some c => if c < crawl then setA st.crawl id crawl else st.crawl
  { maxPackageId := idMax.2
    ids := ids
    pkgs := setA st.pkgs id ⟨path, synopsis, rank, gob, terms, etag, kind⟩
    index := index
    crawl := crawlZ
    blocked := st.blocked }

/-- Remove every binding of key `k`, as Redis `DEL`/`ZREM`. -/
def delA {α β : Type} [DecidableEq α] : List (α × β) → α → List (α × β)
  | [], _ => []
  | (k, v) :: t, k' => if k = k' then delA t k' else (k, v) :: delA t k'

/-- `deleteScript` (src/database/database.go lines 397-412): look up the id
for `path`; remove the id from `index:<term>` for every stored term, remove
the `crawl` entry, delete the `pkg:<id>` hash and the `id:<path>` key. -/
def deleteScript (st : Store) (path : String) : Store :=
  match getA st.ids path with
  | none => st
  | some id =>
    let terms := storedTerms st id
    { maxPackageId := st.maxPackageId
      ids := delA st.ids path
      pkgs := delA st.pkgs id
      index := st.index.filter (fun p => ¬(p.1 ∈ terms ∧ p.2 = id))
      crawl := delA st.crawl id
      blocked := st.blocked }

/-- The deletion condition of `Database.Block`:
`path == root || strings.HasPrefix(path, root) && path[len(root)] == '/'`.
For byte strings the second disjunct is exactly `root + "/"` being a prefix. -/
def blockCond (root p : String) : Prop :=
  p = root ∨ goHasPrefix p (root ++ "/") = true

instance (root p : String) : Decidable (blockCond root p) := by
  unfold blockCond; infer_instance

/-- `Database.Block` (src/database/database.go lines 512-531): `SADD block
root`, then delete every key returned by `KEYS "id:" + root + "*"` whose path
equals `root` or extends it with `/`.  For a `root` free of glob
metacharacters the Redis `KEYS` pattern `root*` returns exactly the keys with
string prefix `root`, which is how the scan is embedded here. -/
def Block (st : Store) (root : String) : Store :=
  let st1 : Store :=
    { st with blocked := if root ∈ st.blocked then st.blocked else root :: st.blocked }
  let keys := (st1.ids.map Prod.fst).filter (fun p => goHasPrefix p root)
  keys.foldl (fun s p => if blockCond root p then deleteScript s p else s) st1

/-! ### Store well-formedness and the index/record agreement invariant -/

/-- Structural well-formedness of the keyspace: unique keys, ids bounded by
`maxPackageId`, and the `id:<path>` / `pkg:<id>` tables are mutually inverse. -/
def Wf (st : Store) : Prop :=
  (st.ids.map Prod.fst).Nodup ∧
  (st.ids.map Prod.snd).Nodup ∧
  (st.pkgs.map Prod.fst).Nodup ∧
  (st.crawl.map Prod.fst).Nodup ∧
  (∀ e ∈ st.ids, e.2 ≤ st.maxPackageId) ∧
  (∀ pr ∈ st.pkgs, pr.1 ≤ st.maxPackageId) ∧
  (∀ e ∈ st.ids, ∃ r, getA st.pkgs e.2 = some r ∧ r.path = e.1) ∧
  (∀ pr ∈ st.pkgs, getA st.ids pr.2.path = some pr.1)

/-- The inverted-index / record agreement: every `index:<term>` membership is
backed by a record holding the term, and every stored term is indexed. -/
def Agree (st : Store) : Prop :=
  (∀ p ∈ st.index, ∃ r, getA st.pkgs p.2 = some r ∧ p.1 ∈ splitTerms r.terms) ∧
  (∀ pr ∈ st.pkgs, ∀ t ∈ splitTerms pr.2.terms, (t, pr.1) ∈ st.index)

theorem wf_store0 : Wf store0 := by
  refine ⟨?_, ?_, ?_, ?_, ?_, ?_, ?_, ?_⟩ <;> simp [store0]

theorem agree_store0 : Agree store0 := by
  constructor <;> simp [store0]


/-! ### Prefix, deletion and replacement lemmas used by the store proofs -/

theorem hasPrefixL_append (a b : List Char) : hasPrefixL a (a ++ b) = true := by
  induction a with
  | nil => simp [hasPrefixL]
  | cons c t ih => simp [hasPrefixL, ih]

theorem hasPrefixL_trans {a b c : List Char} (h1 : hasPrefixL a b = true)
    (h2 : hasPrefixL b c = true) : hasPrefixL a c = true := by
  induction a generalizing b c with
  | nil => simp [hasPrefixL]
  | cons x xs ih =>
    cases b with
    | nil => simp [hasPrefixL] at h1
    | cons y ys =>
      cases c with
      | nil => simp [hasPrefixL] at h2
      | cons z zs =>
        simp only [hasPrefixL, Bool.and_eq_true, decide_eq_true_eq] at h1 h2 ⊢
        exact ⟨h1.1.trans h2.1, ih h1.2 h2.2⟩

theorem goHasPrefix_of_blockCond {root p : String} (h : blockCond root p) :
    goHasPrefix p root = true := by
  rcases h with h | h
  · unfold goHasPrefix
    rw [h]
    simpa using hasPrefixL_append root.toList []
  · refine hasPrefixL_trans ?_ h
    have := hasPrefixL_append root.toList "/".toList
    simpa [goHasPrefix] using this

theorem getA_delA_self {α β : Type} [DecidableEq α] (l : List (α × β)) (k : α) :
    getA (delA l k) k = none := by
  induction l with
  | nil => simp [getA, delA]
  | cons hd t ih =>
    obtain ⟨k₀, v₀⟩ := hd
    by_cases h0 : k₀ = k
    · simp [delA, h0, ih]
    · simp [delA, getA, h0, ih]

theorem getA_delA_ne {α β : Type} [DecidableEq α] (l : List (α × β)) (k k' : α)
    (h : k' ≠ k) : getA (delA l k) k' = getA l k' := by
  induction l with
  | nil => simp [delA]
  | cons hd t ih =>
    obtain ⟨k₀, v₀⟩ := hd
    by_cases h0 : k₀ = k
    · subst h0
      have : k₀ ≠ k' := fun he => h he.symm
      simp [delA, getA, this, ih]
    · simp [delA, getA, h0, ih]

theorem mem_delA {α β : Type} [DecidableEq α] {l : List (α × β)} {k : α} (p : α × β) :
    p ∈ delA l k ↔ p ∈ l ∧ p.1 ≠ k := by
  induction l with
  | nil => simp [delA]
  | cons hd t ih =>
    obtain ⟨k₀, v₀⟩ := hd
    by_cases h0 : k₀ = k
    · subst h0
      have hred : delA ((k₀, v₀) :: t) k₀ = delA t k₀ := by simp [delA]
      rw [hred, ih]
      constructor
      · rintro ⟨hm, hne⟩; exact ⟨List.mem_cons_of_mem _ hm, hne⟩
      · rintro ⟨hm, hne⟩
        rcases List.mem_cons.mp hm with he | hm'
        · exact absurd (congrArg Prod.fst he) (by simpa using hne)
        · exact ⟨hm', hne⟩
    · have hred : delA ((k₀, v₀) :: t) k = (k₀, v₀) :: delA t k := by simp [delA, h0]
      rw [hred]
      constructor
      · intro hp
        rcases List.mem_cons.mp hp with he | hm'
        · exact ⟨List.mem_cons.mpr (Or.inl he), by simp [he, h0]⟩
        · obtain ⟨hm, hne⟩ := ih.mp hm'
          exact ⟨List.mem_cons_of_mem _ hm, hne⟩
      · rintro ⟨hm, hne⟩
        rcases List.mem_cons.mp hm with he | hm'
        · exact List.mem_cons.mpr (Or.inl he)
        · exact List.mem_cons_of_mem _ (ih.mpr ⟨hm', hne⟩)

theorem delA_sublist {α β : Type} [DecidableEq α] (l : List (α × β)) (k : α) :
    List.Sublist (delA l k) l := by
  induction l with
  | nil => simp [delA]
  | cons hd t ih =>
    obtain ⟨k₀, v₀⟩ := hd
    by_cases h0 : k₀ = k
    · have hred : delA ((k₀, v₀) :: t) k = delA t k := by simp [delA, h0]
      rw [hred]
      exact ih.cons _
    · have hred : delA ((k₀, v₀) :: t) k = (k₀, v₀) :: delA t k := by simp [delA, h0]
      rw [hred]
      exact ih.cons₂ _

theorem nodup_fst_delA {α β : Type} [DecidableEq α] {l : List (α × β)} (k : α)
    (h : (l.map Prod.fst).Nodup) : ((delA l k).map Prod.fst).Nodup :=
  ((delA_sublist l k).map Prod.fst).nodup h

theorem nodup_snd_delA {α β : Type} [DecidableEq α] {l : List (α × β)} (k : α)
    (h : (l.map Prod.snd).Nodup) : ((delA l k).map Prod.snd).Nodup :=
  ((delA_sublist l k).map Prod.snd).nodup h

theorem getA_none_iff {α β : Type} [DecidableEq α] (l : List (α × β)) (k : α) :
    getA l k = none ↔ k ∉ l.map Prod.fst := by
  induction l with
  | nil => simp [getA]
  | cons hd t ih =>
    obtain ⟨k₀, v₀⟩ := hd
    by_cases h0 : k₀ = k
    · subst h0; simp [getA]
    · simp [getA, h0, ih, Ne.symm h0]

theorem setA_absent {α β : Type} [DecidableEq α] {l : List (α × β)} {k : α} (v : β)
    (h : k ∉ l.map Prod.fst) : setA l k v = l ++ [(k, v)] := by
  induction l with
  | nil => simp [setA]
  | cons hd t ih =>
    obtain ⟨k₀, v₀⟩ := hd
    simp only [List.map_cons, List.mem_cons] at h
    push_neg at h
    simp [setA, Ne.symm h.1, ih h.2]

theorem mem_setA_nodup {α β : Type} [DecidableEq α] {l : List (α × β)} {k : α} {v : β}
    (hnd : (l.map Prod.fst).Nodup) (p : α × β) :
    p ∈ setA l k v ↔ (p = (k, v) ∨ (p ∈ l ∧ p.1 ≠ k)) := by
  induction l with
  | nil => simp [setA]
  | cons hd t ih =>
    obtain ⟨k₀, v₀⟩ := hd
    simp only [List.map_cons, List.nodup_cons] at hnd
    by_cases h0 : k₀ = k
    · subst h0
      have hnin : ∀ q ∈ t, (q : α × β).1 ≠ k₀ := by
        intro q hq he
        exact hnd.1 (List.mem_map.mpr ⟨q, hq, he⟩)
      constructor
      · intro hp
        simp only [setA, if_pos rfl] at hp
        rcases List.mem_cons.mp hp with h | h
        · exact Or.inl h
        · exact Or.inr ⟨List.mem_cons_of_mem _ h, hnin _ h⟩
      · intro hp
        simp only [setA, if_pos rfl]
        rcases hp with h | ⟨hmem, hne⟩
        · exact List.mem_cons.mpr (Or.inl h)
        · rcases List.mem_cons.mp hmem with h | h
          · exact absurd (congrArg Prod.fst h) (by simpa using hne)
          · exact List.mem_cons_of_mem _ h
    · simp only [setA, if_neg h0]
      constructor
      · intro hp
        rcases List.mem_cons.mp hp with h | h
        · rw [h]; exact Or.inr ⟨List.mem_cons_self _ _, h0⟩
        · rcases (ih hnd.2 |>.mp h) with h' | ⟨hm, hne⟩
          · exact Or.inl h'
          · exact Or.inr ⟨List.mem_cons_of_mem _ hm, hne⟩
      · intro hp
        rcases hp with h | ⟨hmem, hne⟩
        · exact List.mem_cons_of_mem _ ((ih hnd.2).mpr (Or.inl h))
        · rcases List.mem_cons.mp hmem with h | h
          · exact List.mem_cons.mpr (Or.inl h)
          · exact List.mem_cons_of_mem _ ((ih hnd.2).mpr (Or.inr ⟨h, hne⟩))

theorem nodup_fst_setA {α β : Type} [DecidableEq α] {l : List (α × β)} {k : α} (v : β)
    (hnd : (l.map Prod.fst).Nodup) : ((setA l k v).map Prod.fst).Nodup := by
  induction l with
  | nil => simp [setA]
  | cons hd t ih =>
    obtain ⟨k₀, v₀⟩ := hd
    simp only [List.map_cons, List.nodup_cons] at hnd
    by_cases h0 : k₀ = k
    · subst h0
      have hred : setA ((k₀, v₀) :: t) k₀ v = (k₀, v) :: t := by simp [setA]
      rw [hred]
      simp only [List.map_cons, List.nodup_cons]
      exact ⟨hnd.1, hnd.2⟩
    · have hred : setA ((k₀, v₀) :: t) k v = (k₀, v₀) :: setA t k v := by simp [setA, h0]
      rw [hred]
      simp only [List.map_cons, List.nodup_cons]
      refine ⟨?_, ih hnd.2⟩
      intro hmem
      obtain ⟨q, hq, hqe⟩ := List.mem_map.mp hmem
      rcases mem_setA hq with h | h
      · apply h0
        rw [h] at hqe
        exact hqe.symm ▸ rfl
      · exact hnd.1 (List.mem_map.mpr ⟨q, h, hqe⟩)

theorem uniq_of_nodup_snd {α β : Type} {l : List (α × β)}
    (hnd : (l.map Prod.snd).Nodup) {a b : α} {c : β}
    (h1 : (a, c) ∈ l) (h2 : (b, c) ∈ l) : a = b := by
  induction l with
  | nil => simp at h1
  | cons hd t ih =>
    simp only [List.map_cons, List.nodup_cons] at hnd
    rcases List.mem_cons.mp h1 with e1 | e1 <;> rcases List.mem_cons.mp h2 with e2 | e2
    · have := e1.trans e2.symm
      exact congrArg Prod.fst this
    · exact absurd (List.mem_map.mpr ⟨(b, c), e2, by rw [← e1]⟩) hnd.1
    · exact absurd (List.mem_map.mpr ⟨(a, c), e1, by rw [← e2]⟩) hnd.1
    · exact ih hnd.2 e1 e2

/-! ### Membership behaviour of the `putScript` index fold -/

theorem putIndexStep_mem_other (oldT newT : List String) (id : Nat)
    (idx : List (String × Nat)) (t : String) {q : String × Nat}
    (h : q ≠ (t, id)) :
    (q ∈ putIndexStep oldT newT id idx t ↔ q ∈ idx) := by
  unfold putIndexStep
  by_cases h1 : updVal oldT newT t = 1
  · simp [h1, List.mem_filter, h]
  · by_cases h2 : updVal oldT newT t = 2
    · by_cases h3 : (t, id) ∈ idx
      · simp [h1, h2, h3]
      · simp [h1, h2, h3, List.mem_cons, h]
    · simp [h1, h2]

theorem putIndexStep_mem_self (oldT newT : List String) (id : Nat)
    (idx : List (String × Nat)) (t : String) :
    ((t, id) ∈ putIndexStep oldT newT id idx t ↔
      updVal oldT newT t = 2 ∨ (updVal oldT newT t ≠ 1 ∧ (t, id) ∈ idx)) := by
  unfold putIndexStep
  by_cases h1 : updVal oldT newT t = 1
  · simp [h1, List.mem_filter]
  · by_cases h2 : updVal oldT newT t = 2
    · by_cases h3 : (t, id) ∈ idx <;> simp [h1, h2, h3]
    · simp [h1, h2]

theorem foldl_putIndexStep_mem (oldT newT : List String) (id : Nat)
    (ts : List String) (hnd : ts.Nodup) (idx : List (String × Nat))
    (t : String) (i : Nat) :
    ((t, i) ∈ ts.foldl (putIndexStep oldT newT id) idx ↔
      (if i = id ∧ t ∈ ts then
        updVal oldT newT t = 2 ∨ (updVal oldT newT t ≠ 1 ∧ (t, i) ∈ idx)
      else (t, i) ∈ idx)) := by
  induction ts generalizing idx with
  | nil => simp
  | cons t0 ts ih =>
    simp only [List.nodup_cons] at hnd
    rw [List.foldl_cons, ih hnd.2]
    by_cases hti : t = t0
    · subst hti
      have htn : t ∉ ts := hnd.1
      by_cases hi : i = id
      · subst hi
        rw [if_neg (by simp [htn]), if_pos (by simp)]
        exact putIndexStep_mem_self oldT newT i idx t
      · rw [if_neg (by simp [hi]), if_neg (by simp [hi])]
        exact putIndexStep_mem_other oldT newT id idx t (by simp [hi])
    · have hq : (t, i) ≠ (t0, id) := by simp [hti]
      have hmem : (i = id ∧ t ∈ t0 :: ts) ↔ (i = id ∧ t ∈ ts) := by
        constructor
        · rintro ⟨h1, h2⟩
          rcases List.mem_cons.mp h2 with h | h
          · exact absurd h hti
          · exact ⟨h1, h⟩
        · rintro ⟨h1, h2⟩
          exact ⟨h1, List.mem_cons_of_mem _ h2⟩
      by_cases hc : i = id ∧ t ∈ ts
      · rw [if_pos hc, if_pos (hmem.mpr hc), putIndexStep_mem_other oldT newT id idx t0 hq]
      · rw [if_neg hc, if_neg (fun h => hc (hmem.mp h))]
        exact putIndexStep_mem_other oldT newT id idx t0 hq

/-! ### Invariant preservation -/

/-- The combined store invariant. -/
def Inv (st : Store) : Prop := Wf st ∧ Agree st

theorem inv_store0 : Inv store0 := ⟨wf_store0, agree_store0⟩

theorem mem_of_updVal_two {oldT newT : List String} {t : String}
    (h : updVal oldT newT t = 2) : t ∈ newT ∧ t ∉ oldT := by
  unfold updVal at h
  by_cases hm : t ∈ oldT
  · simp only [hm, if_pos] at h; omega
  · refine ⟨?_, hm⟩
    simp only [hm, if_neg, not_false_iff] at h
    have : 0 < newT.count t := by omega
    exact List.count_pos_iff.mp this

theorem mem_new_of_old_ne_one {oldT newT : List String} {t : String}
    (hm : t ∈ oldT) (h : updVal oldT newT t ≠ 1) : t ∈ newT := by
  unfold updVal at h
  simp only [hm, if_pos] at h
  have : 0 < newT.count t := by omega
  exact List.count_pos_iff.mp this

theorem updVal_of_mem_new {oldT newT : List String} (hnd : newT.Nodup) {t : String}
    (hm : t ∈ newT) :
    (t ∈ oldT ∧ updVal oldT newT t = 3) ∨ (t ∉ oldT ∧ updVal oldT newT t = 2) := by
  have hc : newT.count t = 1 := List.count_eq_one_of_mem hnd hm
  by_cases ho : t ∈ oldT
  · exact Or.inl ⟨ho, by simp [updVal, ho, hc]⟩
  · exact Or.inr ⟨ho, by simp [updVal, ho, hc]⟩

theorem inv_putScript (st : Store)
    (path synopsis rank gob terms etag kind : String) (crawl : Int)
    (hinv : Inv st) (hnodup : (splitTerms terms).Nodup) :
    Inv (putScript st path synopsis rank gob terms etag kind crawl) := by
  obtain ⟨⟨hids1, hids2, hpkgs1, hcrawl1, hbnd1, hbnd2, hcorr1, hcorr2⟩, hag1, hag2⟩ := hinv
  rcases hid : getA st.ids path with _ | id0
  · -- fresh id: maxPackageId is incremented and a new id:path binding is made
    have hput : putScript st path synopsis rank gob terms etag kind crawl =
        { maxPackageId := st.maxPackageId + 1
          ids := setA st.ids path (st.maxPackageId + 1)
          pkgs := setA st.pkgs (st.maxPackageId + 1)
            ⟨path, synopsis, rank, gob, terms, etag, kind⟩
          index := ((storedTerms st (st.maxPackageId + 1) ++ splitTerms terms).dedup).foldl
            (putIndexStep (storedTerms st (st.maxPackageId + 1)) (splitTerms terms)
              (st.maxPackageId + 1)) st.index
          crawl :=
            match getA st.crawl (st.maxPackageId + 1) with
            | none => setA st.crawl (st.maxPackageId + 1) crawl
            | some c => if c < crawl then setA st.crawl (st.maxPackageId + 1) crawl
                        else st.crawl
          blocked := st.blocked } := by
      simp only [putScript, hid]
    set nid := st.maxPackageId + 1 with hniddef
    have hfresh : getA st.pkgs nid = none := by
      rcases hh : getA st.pkgs nid with _ | r
      · rfl
      · have := hbnd2 _ (getA_eq_some_mem hh)
        omega
    have hOld : storedTerms st nid = [] := by simp [storedTerms, hfresh]
    have hpath_nin : path ∉ st.ids.map Prod.fst := (getA_none_iff _ _).mp hid
    have hnid_nin_pkgs : nid ∉ st.pkgs.map Prod.fst := (getA_none_iff _ _).mp hfresh
    have hids_eq : setA st.ids path nid = st.ids ++ [(path, nid)] := setA_absent _ hpath_nin
    have hpkgs_eq : setA st.pkgs nid ⟨path, synopsis, rank, gob, terms, etag, kind⟩ =
        st.pkgs ++ [(nid, ⟨path, synopsis, rank, gob, terms, etag, kind⟩)] :=
      setA_absent _ hnid_nin_pkgs
    rw [hput]
    have hfold := foldl_putIndexStep_mem (storedTerms st nid) (splitTerms terms) nid
      ((storedTerms st nid ++ splitTerms terms).dedup) (List.nodup_dedup _) st.index
    constructor
    · refine ⟨?_, ?_, ?_, ?_, ?_, ?_, ?_, ?_⟩
      · -- ids keys nodup
        rw [hids_eq]
        simp only [List.map_append, List.map_cons, List.map_nil]
        rw [List.nodup_append]
        exact ⟨hids1, List.nodup_singleton _, by simpa using hpath_nin⟩
      · -- ids values nodup
        rw [hids_eq]
        simp only [List.map_append, List.map_cons, List.map_nil]
        rw [List.nodup_append]
        refine ⟨hids2, List.nodup_singleton _, ?_⟩
        intro a ha
        obtain ⟨e, he, hee⟩ := List.mem_map.mp ha
        have := hbnd1 _ he
        simp only [List.mem_singleton]
        intro hcon
        rw [hcon] at hee
        omega
      · -- pkgs keys nodup
        rw [hpkgs_eq]
        simp only [List.map_append, List.map_cons, List.map_nil]
        rw [List.nodup_append]
        refine ⟨hpkgs1, List.nodup_singleton _, ?_⟩
        intro a ha
        obtain ⟨e, he, hee⟩ := List.mem_map.mp ha
        have := hbnd2 _ he
        simp only [List.mem_singleton]
        intro hcon
        rw [hcon] at hee
        omega
      · -- crawl keys nodup
        rcases getA st.crawl nid with _ | c
        · exact nodup_fst_setA _ hcrawl1
        · by_cases hc : c < crawl
          · simpa [hc] using nodup_fst_setA (l := st.crawl) (k := nid) crawl hcrawl1
          · simpa [hc] using hcrawl1
      · -- ids bound
        intro e he
        show e.2 ≤ nid
        rw [hids_eq] at he
        rcases List.mem_append.mp he with h | h
        · have := hbnd1 _ h; omega
        · simp only [List.mem_singleton] at h
          rw [h]
      · -- pkgs bound
        intro pr hpr
        show pr.1 ≤ nid
        rw [hpkgs_eq] at hpr
        rcases List.mem_append.mp hpr with h | h
        · have := hbnd2 _ h; omega
        · simp only [List.mem_singleton] at h
          rw [h]
      · -- ids → pkgs
        intro e he
        rw [hids_eq] at he
        rcases List.mem_append.mp he with h | h
        · have hle := hbnd1 _ h
          have hne : nid ≠ e.2 := by omega
          obtain ⟨r, hr, hrp⟩ := hcorr1 _ h
          exact ⟨r, by rw [getA_setA_ne _ _ _ _ hne]; exact hr, hrp⟩
        · simp only [List.mem_singleton] at h
          rw [h]
          exact ⟨_, getA_setA_self _ _ _, rfl⟩
      · -- pkgs → ids
        intro pr hpr
        rw [hpkgs_eq] at hpr
        rcases List.mem_append.mp hpr with h | h
        · have hpne : pr.2.path ≠ path := by
            intro hcon
            have := hcorr2 _ h
            rw [hcon, hid] at this
            exact Option.noConfusion this
          rw [getA_setA_ne _ _ _ _ (Ne.symm hpne)]
          exact hcorr2 _ h
        · simp only [List.mem_singleton] at h
          rw [h]
          exact getA_setA_self _ _ _
    · constructor
      · -- index membership is backed by a record
        rintro ⟨t, i⟩ hp
        rw [hfold t i] at hp
        by_cases hcnd : i = nid ∧ t ∈ (storedTerms st nid ++ splitTerms terms).dedup
        · rw [if_pos hcnd] at hp
          rcases hp with hx2 | ⟨_, hpold⟩
          · obtain ⟨htn, _⟩ := mem_of_updVal_two hx2
            refine ⟨⟨path, synopsis, rank, gob, terms, etag, kind⟩, ?_, ?_⟩
            · rw [hcnd.1]; exact getA_setA_self _ _ _
            · exact htn
          · obtain ⟨r, hr, _⟩ := hag1 _ hpold
            rw [hcnd.1, hfresh] at hr
            exact Option.noConfusion hr
        · rw [if_neg hcnd] at hp
          obtain ⟨r, hr, ht⟩ := hag1 _ hp
          have hle := hbnd2 _ (getA_eq_some_mem hr)
          have hne : nid ≠ i := by omega
          exact ⟨r, by rw [getA_setA_ne _ _ _ _ hne]; exact hr, ht⟩
      · -- stored terms are indexed
        intro pr hpr t ht
        rw [hpkgs_eq] at hpr
        rw [hfold t pr.1]
        rcases List.mem_append.mp hpr with h | h
        · have hle := hbnd2 _ h
          have hcnd : ¬(pr.1 = nid ∧
              t ∈ (storedTerms st nid ++ splitTerms terms).dedup) := by
            rintro ⟨hcon, _⟩; omega
          rw [if_neg hcnd]
          exact hag2 _ h t ht
        · simp only [List.mem_singleton] at h
          have hpr1 : pr.1 = nid := by rw [h]
          have htn : t ∈ splitTerms terms := by rw [h] at ht; exact ht
          rw [hpr1]
          have hcnd : (nid = nid ∧
              t ∈ (storedTerms st nid ++ splitTerms terms).dedup) := by
            refine ⟨rfl, ?_⟩
            rw [List.mem_dedup, List.mem_append]
            exact Or.inr htn
          rw [if_pos hcnd]
          left
          have hc : (splitTerms terms).count t = 1 := List.count_eq_one_of_mem hnodup htn
          simp [updVal, hOld, hc]
  · -- existing id
    have hput : putScript st path synopsis rank gob terms etag kind crawl =
        { maxPackageId := st.maxPackageId
          ids := st.ids
          pkgs := setA st.pkgs id0 ⟨path, synopsis, rank, gob, terms, etag, kind⟩
          index := ((storedTerms st id0 ++ splitTerms terms).dedup).foldl
            (putIndexStep (storedTerms st id0) (splitTerms terms) id0) st.index
          crawl :=
            match getA st.crawl id0 with
            | none => setA st.crawl id0 crawl
            | some c => if c < crawl then setA st.crawl id0 crawl else st.crawl
          blocked := st.blocked } := by
      simp only [putScript, hid]
    have hmem_ids : (path, id0) ∈ st.ids := getA_eq_some_mem hid
    obtain ⟨r0, hr0, hr0path⟩ := hcorr1 _ hmem_ids
    have hOld : storedTerms st id0 = splitTerms r0.terms := by simp [storedTerms, hr0]
    have hid0le : id0 ≤ st.maxPackageId := hbnd1 _ hmem_ids
    rw [hput]
    have hfold := foldl_putIndexStep_mem (storedTerms st id0) (splitTerms terms) id0
      ((storedTerms st id0 ++ splitTerms terms).dedup) (List.nodup_dedup _) st.index
    constructor
    · refine ⟨hids1, hids2, nodup_fst_setA _ hpkgs1, ?_, hbnd1, ?_, ?_, ?_⟩
      · -- crawl keys nodup
        rcases getA st.crawl id0 with _ | c
        · exact nodup_fst_setA _ hcrawl1
        · by_cases hc : c < crawl
          · simpa [hc] using nodup_fst_setA (l := st.crawl) (k := id0) crawl hcrawl1
          · simpa [hc] using hcrawl1
      · -- pkgs bound
        intro pr hpr
        rcases mem_setA hpr with h | h
        · rw [h]; exact hid0le
        · exact hbnd2 _ h
      · -- ids → pkgs
        intro e he
        by_cases hei : e.2 = id0
        · have he' : (e.1, id0) ∈ st.ids := by
            rw [← hei]
            exact he
          have hpathe : e.1 = path := uniq_of_nodup_snd hids2 he' hmem_ids
          refine ⟨⟨path, synopsis, rank, gob, terms, etag, kind⟩, ?_, hpathe.symm⟩
          rw [hei]
          exact getA_setA_self _ _ _
        · obtain ⟨r, hr, hrp⟩ := hcorr1 _ he
          exact ⟨r, by rw [getA_setA_ne _ _ _ _ (fun hcon => hei hcon.symm)]; exact hr, hrp⟩
      · -- pkgs → ids
        intro pr hpr
        rcases (mem_setA_nodup hpkgs1 pr).mp hpr with h | ⟨h, hne⟩
        · rw [h]
          exact hid
        · exact hcorr2 _ h
    · constructor
      · -- index membership is backed by a record
        rintro ⟨t, i⟩ hp
        rw [hfold t i] at hp
        by_cases hcnd : i = id0 ∧ t ∈ (storedTerms st id0 ++ splitTerms terms).dedup
        · rw [if_pos hcnd] at hp
          rcases hp with hx2 | ⟨hx1, hpold⟩
          · obtain ⟨htn, _⟩ := mem_of_updVal_two hx2
            refine ⟨⟨path, synopsis, rank, gob, terms, etag, kind⟩, ?_, htn⟩
            rw [hcnd.1]; exact getA_setA_self _ _ _
          · obtain ⟨r, hr, ht⟩ := hag1 _ hpold
            rw [hcnd.1] at hr
            rw [hr0] at hr
            injection hr with hr
            have htold : t ∈ storedTerms st id0 := by rw [hOld, hr]; exact ht
            have htnew : t ∈ splitTerms terms := mem_new_of_old_ne_one htold hx1
            refine ⟨⟨path, synopsis, rank, gob, terms, etag, kind⟩, ?_, htnew⟩
            rw [hcnd.1]; exact getA_setA_self _ _ _
        · rw [if_neg hcnd] at hp
          obtain ⟨r, hr, ht⟩ := hag1 _ hp
          have hine : i ≠ id0 := by
            intro hcon
            apply hcnd
            refine ⟨hcon, ?_⟩
            rw [List.mem_dedup, List.mem_append]
            left
            rw [hcon] at hr
            rw [hr0] at hr
            injection hr with hr
            rw [hOld, hr]
            exact ht
          exact ⟨r, by rw [getA_setA_ne _ _ _ _ (Ne.symm hine)]; exact hr, ht⟩
      · -- stored terms are indexed
        intro pr hpr t ht
        rw [hfold t pr.1]
        rcases (mem_setA_nodup hpkgs1 pr).mp hpr with h | ⟨h, hne⟩
        · have hterms : t ∈ splitTerms terms := by
            rw [h] at ht
            exact ht
          have hcnd : (pr.1 = id0 ∧
              t ∈ (storedTerms st id0 ++ splitTerms terms).dedup) := by
            refine ⟨by rw [h], ?_⟩
            rw [List.mem_dedup, List.mem_append]
            exact Or.inr hterms
          rw [if_pos hcnd]
          rcases updVal_of_mem_new hnodup hterms with ⟨ho, hv⟩ | ⟨ho, hv⟩
          · right
            refine ⟨by rw [hv]; omega, ?_⟩
            rw [hcnd.1]
            have : t ∈ splitTerms r0.terms := by rw [← hOld]; exact ho
            exact hag2 _ (getA_eq_some_mem hr0) t this
          · left; exact hv
        · have hcnd : ¬(pr.1 = id0 ∧
              t ∈ (storedTerms st id0 ++ splitTerms terms).dedup) := by
            rintro ⟨hcon, _⟩; exact hne hcon
          rw [if_neg hcnd]
          exact hag2 _ h t ht

theorem inv_deleteScript (st : Store) (path : String) (hinv : Inv st) :
    Inv (deleteScript st path) := by
  obtain ⟨⟨hids1, hids2, hpkgs1, hcrawl1, hbnd1, hbnd2, hcorr1, hcorr2⟩, hag1, hag2⟩ := hinv
  rcases hid : getA st.ids path with _ | id0
  · simpa [deleteScript, hid] using
      ⟨⟨hids1, hids2, hpkgs1, hcrawl1, hbnd1, hbnd2, hcorr1, hcorr2⟩, hag1, hag2⟩
  · have hdel : deleteScript st path =
        { maxPackageId := st.maxPackageId
          ids := delA st.ids path
          pkgs := delA st.pkgs id0
          index := st.index.filter
            (fun p => ¬(p.1 ∈ storedTerms st id0 ∧ p.2 = id0))
          crawl := delA st.crawl id0
          blocked := st.blocked } := by
      simp only [deleteScript, hid]
    have hmem_ids : (path, id0) ∈ st.ids := getA_eq_some_mem hid
    rw [hdel]
    constructor
    · refine ⟨nodup_fst_delA _ hids1, nodup_snd_delA _ hids2, nodup_fst_delA _ hpkgs1,
        nodup_fst_delA _ hcrawl1, ?_, ?_, ?_, ?_⟩
      · intro e he
        exact hbnd1 _ ((mem_delA e).mp he).1
      · intro pr hpr
        exact hbnd2 _ ((mem_delA pr).mp hpr).1
      · intro e he
        obtain ⟨he', hne⟩ := (mem_delA e).mp he
        obtain ⟨r, hr, hrp⟩ := hcorr1 _ he'
        have hne2 : e.2 ≠ id0 := by
          intro hcon
          exact hne (uniq_of_nodup_snd hids2 (by rw [← hcon]; exact he') hmem_ids)
        exact ⟨r, by rw [getA_delA_ne _ _ _ hne2]; exact hr, hrp⟩
      · intro pr hpr
        obtain ⟨hpr', hne⟩ := (mem_delA pr).mp hpr
        have hpne : pr.2.path ≠ path := by
          intro hcon
          apply hne
          have := hcorr2 _ hpr'
          rw [hcon, hid] at this
          injection this with h2
          exact h2.symm
        rw [getA_delA_ne _ _ _ hpne]
        exact hcorr2 _ hpr'
    · constructor
      · rintro ⟨t, i⟩ hp
        rw [List.mem_filter] at hp
        obtain ⟨hp, hcond⟩ := hp
        obtain ⟨r, hr, ht⟩ := hag1 _ hp
        have hine : i ≠ id0 := by
          intro hcon
          rw [hcon] at hr
          have hterm : t ∈ storedTerms st id0 := by
            simp only [storedTerms, hr]
            exact ht
          simp [hterm, hcon] at hcond
        exact ⟨r, by rw [getA_delA_ne _ _ _ hine]; exact hr, ht⟩
      · intro pr hpr t ht
        obtain ⟨hpr', hne⟩ := (mem_delA pr).mp hpr
        rw [List.mem_filter]
        refine ⟨hag2 _ hpr' t ht, ?_⟩
        simp [hne]

theorem deleteScript_removes (st : Store) (path : String) (hinv : Inv st) :
    (∀ pr ∈ (deleteScript st path).pkgs, pr.2.path ≠ path) ∧
    (∀ id, getA st.ids path = some id →
      getA (deleteScript st path).crawl id = none ∧
      ∀ t, (t, id) ∉ (deleteScript st path).index) := by
  obtain ⟨⟨hids1, hids2, hpkgs1, hcrawl1, hbnd1, hbnd2, hcorr1, hcorr2⟩, hag1, hag2⟩ := hinv
  rcases hid : getA st.ids path with _ | id0
  · constructor
    · intro pr hpr hcon
      have h2 := hcorr2 _ (by simpa [deleteScript, hid] using hpr)
      rw [hcon, hid] at h2
      exact Option.noConfusion h2
    · intro id hcon
      exact Option.noConfusion hcon
  · have hdel : deleteScript st path =
        { maxPackageId := st.maxPackageId
          ids := delA st.ids path
          pkgs := delA st.pkgs id0
          index := st.index.filter
            (fun p => ¬(p.1 ∈ storedTerms st id0 ∧ p.2 = id0))
          crawl := delA st.crawl id0
          blocked := st.blocked } := by
      simp only [deleteScript, hid]
    rw [hdel]
    constructor
    · intro pr hpr hcon
      obtain ⟨hpr', hne⟩ := (mem_delA pr).mp hpr
      have h2 := hcorr2 _ hpr'
      rw [hcon, hid] at h2
      injection h2 with h2
      exact hne h2.symm
    · intro idv hcon
      injection hcon with hcon
      subst hcon
      refine ⟨getA_delA_self _ _, ?_⟩
      intro t hmem
      rw [List.mem_filter] at hmem
      obtain ⟨hmem, hcond⟩ := hmem
      obtain ⟨r, hr, ht⟩ := hag1 _ hmem
      have hterm : t ∈ storedTerms st id0 := by
        simp only [storedTerms, hr]
        exact ht
      simp [hterm] at hcond

theorem deleteScript_pkgs_subset {st : Store} {path : String} {pr : Nat × PkgRec}
    (h : pr ∈ (deleteScript st path).pkgs) : pr ∈ st.pkgs := by
  rcases hid : getA st.ids path with _ | id0
  · simpa [deleteScript, hid] using h
  · simp only [deleteScript, hid] at h
    exact ((mem_delA pr).mp h).1

/-- The per-key step of `Database.Block`'s deletion loop. -/
def blockStep (root : String) (s : Store) (p : String) : Store :=
  if blockCond root p then deleteScript s p else s

theorem inv_blockStep (root : String) (s : Store) (p : String) (hinv : Inv s) :
    Inv (blockStep root s p) := by
  unfold blockStep
  by_cases h : blockCond root p
  · simpa [h] using inv_deleteScript s p hinv
  · simpa [h] using hinv

theorem blockStep_pkgs_subset {root : String} {s : Store} {p : String} {pr : Nat × PkgRec}
    (h : pr ∈ (blockStep root s p).pkgs) : pr ∈ s.pkgs := by
  unfold blockStep at h
  by_cases hc : blockCond root p
  · rw [if_pos hc] at h
    exact deleteScript_pkgs_subset h
  · rwa [if_neg hc] at h

theorem inv_foldBlock (root : String) (keys : List String) (s : Store) (hinv : Inv s) :
    Inv (keys.foldl (blockStep root) s) := by
  induction keys generalizing s with
  | nil => simpa using hinv
  | cons k ks ih =>
    rw [List.foldl_cons]
    exact ih _ (inv_blockStep root s k hinv)

theorem foldBlock_pkgs_subset {root : String} {keys : List String} {s : Store}
    {pr : Nat × PkgRec} (h : pr ∈ (keys.foldl (blockStep root) s).pkgs) : pr ∈ s.pkgs := by
  induction keys generalizing s with
  | nil => simpa using h
  | cons k ks ih =>
    rw [List.foldl_cons] at h
    exact blockStep_pkgs_subset (ih h)

theorem foldBlock_kills (root : String) (keys : List String) (s : Store) (hinv : Inv s) :
    ∀ p ∈ keys, blockCond root p →
      ∀ pr ∈ (keys.foldl (blockStep root) s).pkgs, pr.2.path ≠ p := by
  induction keys generalizing s with
  | nil => intro p hp; simp at hp
  | cons k ks ih =>
    intro p hp hbc pr hpr
    rw [List.foldl_cons] at hpr
    rcases List.mem_cons.mp hp with he | hin
    · subst he
      have hstep : blockStep root s p = deleteScript s p := if_pos hbc
      rw [hstep] at hpr
      have hnin := (deleteScript_removes s p hinv).1
      exact hnin _ (foldBlock_pkgs_subset hpr)
    · exact ih (blockStep root s k) (inv_blockStep root s k hinv) p hin hbc pr hpr

theorem Block_eq_fold (st : Store) (root : String) :
    Block st root =
      ((st.ids.map Prod.fst).filter (fun p => goHasPrefix p root)).foldl (blockStep root)
        { st with blocked := if root ∈ st.blocked then st.blocked else root :: st.blocked } := by
  have h : (fun s p => if blockCond root p then deleteScript s p else s) = blockStep root := by
    funext s p
    rfl
  simp only [Block]
  rw [h]

theorem inv_Block (st : Store) (root : String) (hinv : Inv st) : Inv (Block st root) := by
  rw [Block_eq_fold]
  exact inv_foldBlock _ _ _ hinv

theorem Block_kills (st : Store) (root : String) (hinv : Inv st) :
    ∀ pr ∈ (Block st root).pkgs, ¬ blockCond root pr.2.path := by
  intro pr hpr hbc
  rw [Block_eq_fold] at hpr
  set st1 : Store :=
    { st with blocked := if root ∈ st.blocked then st.blocked else root :: st.blocked }
    with hst1
  have hinv1 : Inv st1 := hinv
  have hpr1 : pr ∈ st1.pkgs := foldBlock_pkgs_subset hpr
  have hlook : getA st1.ids pr.2.path = some pr.1 := hinv1.1.2.2.2.2.2.2.2 _ hpr1
  have hinids : (pr.2.path, pr.1) ∈ st1.ids := getA_eq_some_mem hlook
  have hkey : pr.2.path ∈ (st1.ids.map Prod.fst).filter (fun p => goHasPrefix p root) := by
    rw [List.mem_filter]
    exact ⟨List.mem_map.mpr ⟨_, hinids, rfl⟩, goHasPrefix_of_blockCond hbc⟩
  exact foldBlock_kills root _ st1 hinv1 _ hkey hbc pr hpr rfl

theorem blockStep_frame (root p : String) (s : Store) (hinv : Inv s)
    {pr : Nat × PkgRec} (hmem : pr ∈ s.pkgs) (hnb : ¬ blockCond root pr.2.path) :
    pr ∈ (blockStep root s p).pkgs ∧
    (∀ t, ((t, pr.1) ∈ (blockStep root s p).index ↔ (t, pr.1) ∈ s.index)) ∧
    getA (blockStep root s p).crawl pr.1 = getA s.crawl pr.1 := by
  unfold blockStep
  by_cases hc : blockCond root p
  · rw [if_pos hc]
    rcases hid : getA s.ids p with _ | idp
    · have hstep : deleteScript s p = s := by simp [deleteScript, hid]
      rw [hstep]
      exact ⟨hmem, fun t => Iff.rfl, rfl⟩
    · obtain ⟨⟨hids1, hids2, hpkgs1, hcrawl1, hbnd1, hbnd2, hcorr1, hcorr2⟩, hag1, hag2⟩ := hinv
      have hne : idp ≠ pr.1 := by
        intro hcon
        obtain ⟨r, hr, hrp⟩ := hcorr1 _ (getA_eq_some_mem hid)
        rw [hcon] at hr
        have hlook : getA s.pkgs pr.1 = some pr.2 := mem_getA_of_nodup hpkgs1 hmem
        rw [hlook] at hr
        injection hr with hr
        apply hnb
        rw [← hr] at hrp
        rw [hrp]
        exact hc
      have hdel : deleteScript s p =
          { maxPackageId := s.maxPackageId
            ids := delA s.ids p
            pkgs := delA s.pkgs idp
            index := s.index.filter
              (fun q => ¬(q.1 ∈ storedTerms s idp ∧ q.2 = idp))
            crawl := delA s.crawl idp
            blocked := s.blocked } := by
        simp only [deleteScript, hid]
      rw [hdel]
      refine ⟨(mem_delA pr).mpr ⟨hmem, fun hcon => hne hcon.symm⟩, ?_, ?_⟩
      · intro t
        rw [List.mem_filter]
        constructor
        · rintro ⟨hm, _⟩; exact hm
        · intro hm
          refine ⟨hm, ?_⟩
          have hne' : pr.1 ≠ idp := fun hcon => hne hcon.symm
          simp [hne']
      · exact getA_delA_ne _ _ _ (Ne.symm hne)
  · rw [if_neg hc]
    exact ⟨hmem, fun t => Iff.rfl, rfl⟩

theorem foldBlock_frame (root : String) (keys : List String) (s : Store) (hinv : Inv s)
    {pr : Nat × PkgRec} (hmem : pr ∈ s.pkgs) (hnb : ¬ blockCond root pr.2.path) :
    pr ∈ (keys.foldl (blockStep root) s).pkgs ∧
    (∀ t, ((t, pr.1) ∈ (keys.foldl (blockStep root) s).index ↔ (t, pr.1) ∈ s.index)) ∧
    getA (keys.foldl (blockStep root) s).crawl pr.1 = getA s.crawl pr.1 := by
  induction keys generalizing s with
  | nil => exact ⟨hmem, fun t => Iff.rfl, rfl⟩
  | cons k ks ih =>
    rw [List.foldl_cons]
    obtain ⟨h1, h2, h3⟩ := blockStep_frame root k s hinv hmem hnb
    obtain ⟨g1, g2, g3⟩ := ih (blockStep root s k) (inv_blockStep root s k hinv) h1
    exact ⟨g1, fun t => (g2 t).trans (h2 t), g3.trans h3⟩

theorem Block_frame (st : Store) (root : String) (hinv : Inv st)
    {pr : Nat × PkgRec} (hmem : pr ∈ st.pkgs) (hnb : ¬ blockCond root pr.2.path) :
    pr ∈ (Block st root).pkgs ∧
    (∀ t, ((t, pr.1) ∈ (Block st root).index ↔ (t, pr.1) ∈ st.index)) ∧
    getA (Block st root).crawl pr.1 = getA st.crawl pr.1 := by
  rw [Block_eq_fold]
  have hinv1 : Inv ({ st with blocked :=
      if root ∈ st.blocked then st.blocked else root :: st.blocked } : Store) := hinv
  have hmem1 : pr ∈ ({ st with blocked :=
      if root ∈ st.blocked then st.blocked else root :: st.blocked } : Store).pkgs := hmem
  exact foldBlock_frame root _ _ hinv1 hmem1 hnb

/-! ### Operation sequences over the store -/

/-- A store operation: `Database.Put` (which invokes `putScript` with the
space-joined term list), `Database.Delete` (`deleteScript`) or
`Database.Block`. -/
inductive DbOp where
  | put (path synopsis rank gob terms etag kind : String) (crawl : Int)
  | del (path : String)
  | block (root : String)
deriving DecidableEq, Repr

def applyOp (st : Store) : DbOp → Store
  | .put path synopsis rank gob terms etag kind crawl =>
      putScript st path synopsis rank gob terms etag kind crawl
  | .del path => deleteScript st path
  | .block root => Block st root

/-- Run a sequence of store operations against the empty keyspace. -/
def runOps (ops : List DbOp) : Store := ops.foldl applyOp store0

/-- Well-formedness of a `put`: its terms string parses to a duplicate-free
term list.  `Database.Put` passes `strings.Join(documentTerms(pdoc, rank), " ")`
and `documentTerms` (database/search.go, not included under src/) accumulates
the terms in a map before listing them, so its output is duplicate-free. -/
def OpWf : DbOp → Prop
  | .put _ _ _ _ terms _ _ _ => (splitTerms terms).Nodup
  | .del _ => True
  | .block _ => True

instance (op : DbOp) : Decidable (OpWf op) := by
  cases op
  · unfold OpWf; infer_instance
  · unfold OpWf; infer_instance
  · unfold OpWf; infer_instance

theorem inv_applyOp (st : Store) (op : DbOp) (hinv : Inv st) (hwf : OpWf op) :
    Inv (applyOp st op) := by
  cases op with
  | put path synopsis rank gob terms etag kind crawl =>
    exact inv_putScript st path synopsis rank gob terms etag kind crawl hinv hwf
  | del path => exact inv_deleteScript st path hinv
  | block root => exact inv_Block st root hinv

theorem inv_foldOps (ops : List DbOp) (st : Store) (hinv : Inv st)
    (hops : ∀ op ∈ ops, OpWf op) : Inv (ops.foldl applyOp st) := by
  induction ops generalizing st with
  | nil => simpa using hinv
  | cons op ops ih =>
    rw [List.foldl_cons]
    exact ih _ (inv_applyOp st op hinv (hops op (List.mem_cons_self _ _)))
      (fun o ho => hops o (List.mem_cons_of_mem _ ho))

theorem inv_runOps (ops : List DbOp) (hops : ∀ op ∈ ops, OpWf op) : Inv (runOps ops) :=
  inv_foldOps ops store0 inv_store0 hops

/-- **C1**: after any sequence of `put`/`delete`/`block` operations on the
document store, the inverted index and the records agree: every
`index:<term>` membership is backed by an existing record whose stored
space-separated terms string contains the term, and every stored term of
every record is indexed; a further `deleteScript` on any path leaves no
record with that path and removes the crawl-queue entry and every index
membership of the path's id; and after `Block root` no record remains whose
path is `root` or a descendant of `root`. -/
theorem putScript_deleteScript_block_agreement (ops : List DbOp)
    (hops : ∀ op ∈ ops, OpWf op) :
    (∀ p ∈ (runOps ops).index, ∃ r, getA (runOps ops).pkgs p.2 = some r ∧
        p.1 ∈ splitTerms r.terms) ∧
    (∀ pr ∈ (runOps ops).pkgs, ∀ t ∈ splitTerms pr.2.terms,
        (t, pr.1) ∈ (runOps ops).index) ∧
    (∀ path,
      (∀ pr ∈ (deleteScript (runOps ops) path).pkgs, pr.2.path ≠ path) ∧
      (∀ i, getA (runOps ops).ids path = some i →
        getA (deleteScript (runOps ops) path).crawl i = none ∧
        ∀ t, (t, i) ∉ (deleteScript (runOps ops) path).index)) ∧
    (∀ root, ∀ pr ∈ (Block (runOps ops) root).pkgs, ¬ blockCond root pr.2.path) := by
  have hinv := inv_runOps ops hops
  refine ⟨hinv.2.1, hinv.2.2, ?_, ?_⟩
  · intro path
    exact deleteScript_removes (runOps ops) path hinv
  · intro root
    exact Block_kills (runOps ops) root hinv

/-- An executable checker for `Wf`. -/
def WfB (st : Store) : Bool :=
  decide (st.ids.map Prod.fst).Nodup &&
  decide (st.ids.map Prod.snd).Nodup &&
  decide (st.pkgs.map Prod.fst).Nodup &&
  decide (st.crawl.map Prod.fst).Nodup &&
  st.ids.all (fun e => decide (e.2 ≤ st.maxPackageId)) &&
  st.pkgs.all (fun pr => decide (pr.1 ≤ st.maxPackageId)) &&
  st.ids.all (fun e =>
    match getA st.pkgs e.2 with
    | some r => decide (r.path = e.1)
    | none => false) &&
  st.pkgs.all (fun pr => decide (getA st.ids pr.2.path = some pr.1))

/-- An executable checker for `Agree`. -/
def AgreeB (st : Store) : Bool :=
  st.index.all (fun p =>
    match getA st.pkgs p.2 with
    | some r => decide (p.1 ∈ splitTerms r.terms)
    | none => false) &&
  st.pkgs.all (fun pr =>
    (splitTerms pr.2.terms).all (fun t => decide ((t, pr.1) ∈ st.index)))

theorem inv_of_invB (st : Store) (h : (WfB st && AgreeB st) = true) : Inv st := by
  simp only [WfB, AgreeB, Bool.and_eq_true, List.all_eq_true, decide_eq_true_eq] at h
  obtain ⟨⟨⟨⟨⟨⟨⟨⟨h1, h2⟩, h3⟩, h4⟩, h5⟩, h6⟩, h7⟩, h8⟩, h9, h10⟩ := h
  refine ⟨⟨h1, h2, h3, h4, h5, h6, ?_, h8⟩, ?_, h10⟩
  · intro e he
    have := h7 e he
    rcases hh : getA st.pkgs e.2 with _ | r
    · rw [hh] at this
      simp at this
    · rw [hh] at this
      simp only [decide_eq_true_eq] at this
      exact ⟨r, rfl, this⟩
  · intro p hp
    have := h9 p hp
    rcases hh : getA st.pkgs p.2 with _ | r
    · rw [hh] at this
      simp at this
    · rw [hh] at this
      simp only [decide_eq_true_eq] at this
      exact ⟨r, rfl, this⟩

/-- A concrete operation sequence used to witness C1. -/
def c1ops : List DbOp :=
  [DbOp.put "example.org/a" "syn" "2" "gob1" "alpha beta" "etag1" "p" 5,
   DbOp.put "example.org/a/b" "syn2" "1" "gob2" "beta gamma" "etag2" "p" 6,
   DbOp.del "example.org/a/b",
   DbOp.block "example.org/a"]

theorem putScript_deleteScript_block_agreement_witness :
    (∀ op ∈ c1ops, OpWf op) ∧
    (∀ p ∈ (runOps c1ops).index, ∃ r, getA (runOps c1ops).pkgs p.2 = some r ∧
        p.1 ∈ splitTerms r.terms) :=
  ⟨by decide, (putScript_deleteScript_block_agreement c1ops (by decide)).1⟩

/-- **C10**: `Block root` deletes exactly the records whose path equals `root`
or extends it with a `/`; a record whose path merely has `root` as a string
prefix without a following `/` keeps its record, all of its inverted-index
memberships, and its crawl-queue entry unchanged. -/
theorem Block_frame_effect (st : Store) (root : String) (hinv : Inv st)
    (pr : Nat × PkgRec) (hmem : pr ∈ st.pkgs)
    (hpre : goHasPrefix pr.2.path root = true)
    (hneq : pr.2.path ≠ root)
    (hnoslash : goHasPrefix pr.2.path (root ++ "/") = false) :
    pr ∈ (Block st root).pkgs ∧
    (∀ t, ((t, pr.1) ∈ (Block st root).index ↔ (t, pr.1) ∈ st.index)) ∧
    getA (Block st root).crawl pr.1 = getA st.crawl pr.1 := by
  have hnb : ¬ blockCond root pr.2.path := by
    rintro (h | h)
    · exact hneq h
    · rw [h] at hnoslash
      cases hnoslash
  exact Block_frame st root hinv hmem hnb

/-- A concrete store used to witness C10: one record at path `"ax"`, whose
path has `"a"` as a prefix but not `"a/"`. -/
def c10store : Store :=
  { maxPackageId := 1
    ids := [("ax", 1)]
    pkgs := [(1, ⟨"ax", "syn", "2", "gob", "alpha beta", "etag", "p"⟩)]
    index := [("alpha", 1), ("beta", 1)]
    crawl := [(1, 5)]
    blocked := [] }

theorem Block_frame_effect_witness :
    Inv c10store ∧
    (1, (⟨"ax", "syn", "2", "gob", "alpha beta", "etag", "p"⟩ : PkgRec)) ∈
      (Block c10store "a").pkgs :=
  ⟨inv_of_invB _ (by decide),
   (Block_frame_effect c10store "a" (inv_of_invB _ (by decide))
     (1, ⟨"ax", "syn", "2", "gob", "alpha beta", "etag", "p"⟩)
     (by decide) (by decide) (by decide) (by decide)).1⟩

/-! ### The in-memory inverted index (`src/index/index.go`) -/

/-- The fields of `doc.Package` used by the index, the database and the
crawler.  Declaration lists carry only the entries' names — the index and the
store consult only their emptiness. -/
structure DocPackage where
  name : String
  importPath : String
  projectRoot : String
  projectName : String
  synopsis : String
  doc : String
  isCmd : Bool
  imports : List String
  errors : List String
  consts : List String
  vars : List String
  funcs : List String
  types : List String
  etag : String
  updated : Int
deriving DecidableEq, Repr

/-- ASCII case folding, as `strings.ToLower` acts on the ASCII terms here. -/
def charLower (c : Char) : Char :=
  if 'A' ≤ c ∧ c ≤ 'Z' then Char.ofNat (c.toNat + 32) else c

/-- `makeTerm` (src/index/index.go lines 125-136) lowercases the string and
packs it zero-padded into a 16-byte array; strings longer than 16 bytes are
replaced by a salted md5 digest, the salt being read from crypto/rand at
startup.  The packing is modelled by the lowercased string itself: on the
short NUL-free terms of this development the 16-byte encoding is injective,
and every claim below compares only outputs of this same function. -/
def makeTerm (s : String) : String :=
  String.mk (s.toList.map charLower)

/-- `strings.Index`: byte offset of the first occurrence of `sub`, `-1` when
absent (character offsets coincide with byte offsets on ASCII inputs). -/
def strIndexAux (sub : List Char) : List Char → Nat → Option Nat
  | [], i => if hasPrefixL sub [] then some i else none
  | c :: t, i => if hasPrefixL sub (c :: t) then some i else strIndexAux sub t (i + 1)

def goStrIndex (s sub : String) : Int :=
  match strIndexAux sub.toList s.toList 0 with
  | some i => (i : Int)
  | none => -1

/-- `path.Split(p)`'s file component: everything after the final `/`. -/
def pathSplitName (p : String) : String :=
  String.mk ((p.toList.reverse.takeWhile (· ≠ '/')).reverse)

/-- OR the mask into the terms map entry, as `terms[term] |= mask`. -/
def addTerm (m : List (String × Nat)) (mask : Nat) (t : String) : List (String × Nat) :=
  match getA m t with
  | some x => setA m t (x.lor mask)
  | none => setA m t mask

/-- The last three term sources of `addPackageTerms`: the `import:` terms,
the package name and the final import-path segment. -/
def addMainTerms (dpkg : DocPackage) (mask : Nat) (terms : List (String × Nat)) :
    List (String × Nat) :=
  let terms := dpkg.imports.foldl
    (fun m ip => addTerm m mask (makeTerm ("import:" ++ ip))) terms
  let terms := addTerm terms mask (makeTerm dpkg.name)
  addTerm terms mask (makeTerm (pathSplitName dpkg.importPath))

/-- `addPackageTerms` (src/index/index.go lines 138-175).  The Go map is
modelled as an association list built with `setA`, so its keys are unique;
the unspecified Go map iteration order is immaterial because the consumers
act independently per key. -/
def addPackageTerms (terms : List (String × Nat)) (mask : Nat) (dpkg : DocPackage) :
    List (String × Nat) :=
  if dpkg.name = "" then terms
  else
    let terms := addTerm terms mask (makeTerm ("project:" ++ dpkg.projectRoot))
    if dpkg.isCmd then
      let i := goStrIndex dpkg.doc "."
      if dpkg.synopsis = "" ∨ i ≤ (dpkg.doc.length : Int) - 1 then terms
      else addMainTerms dpkg mask terms
    else
      if dpkg.consts.length = 0 ∧ dpkg.vars.length = 0 ∧ dpkg.funcs.length = 0 ∧
          dpkg.types.length = 0 then terms
      else addMainTerms dpkg mask terms

/-- A search result (src/index/index.go lines 30-35); the float32 score only
ever takes the values 0, 1, 2, 3 and is modelled as a natural number. -/
structure SearchResult where
  importPath : String
  synopsis : String
  isCmd : Bool
  score : Nat
deriving DecidableEq, Repr

/-- `ipackage`: the index's record of one package. -/
structure IPackage where
  result : SearchResult
  dpkg : DocPackage
deriving DecidableEq, Repr

/-- The `Index` state: packages by id (`nil` after removal), the path → id
map, and the per-term posting lists. -/
structure Index where
  pkgs : List (Option IPackage)
  ids : List (String × Nat)
  rindex : List (String × List Nat)
deriving DecidableEq, Repr

/-- `index.New()`. -/
def indexNew : Index := ⟨[], [], []⟩

/-- Reading `idx.rindex[term]`: a missing key is the empty posting list. -/
def rindexGet (ri : List (String × List Nat)) (t : String) : List Nat :=
  (getA ri t).getD []

/-- The loop of `postingList.intersect` (src/index/index.go lines 61-79):
walk both sorted lists, appending common ids to `dst`.  The loop consumes at
least one element per iteration, so it is driven by a structural fuel of
`pl.length + other.length`, which never runs out. -/
def intersectFuel : Nat → List Nat → List Nat → List Nat → List Nat
  | 0, _, _, dst => dst
  | _ + 1, [], _, dst => dst
  | _ + 1, _, [], dst => dst
  | fuel + 1, a :: as, b :: bs, dst =>
    if a = b then intersectFuel fuel as bs (dst ++ [a])
    else if a > b then intersectFuel fuel (a :: as) bs dst
    else intersectFuel fuel as (b :: bs) dst

def intersectLoop (pl other dst : List Nat) : List Nat :=
  intersectFuel (pl.length + other.length) pl other dst

/-- `pl.intersect(dst, other)`: the source short-circuits on an empty side
(the loop below agrees there, but the guard is kept as written).  The
source's `dst = pl[:0]` aliasing reuses `pl`'s storage; positions are only
overwritten after they have been read, so the result equals appending to a
fresh list. -/
def plIntersect (pl dst other : List Nat) : List Nat :=
  if pl.length = 0 ∨ other.length = 0 then dst
  else intersectLoop pl other dst

/-- `postingList.add` on a sorted duplicate-free list (the source inserts via
`sort.Search`; on sorted lists this linear insertion computes the same
list). -/
def plAdd : List Nat → Nat → List Nat
  | [], p => [p]
  | a :: t, p =>
    if p < a then p :: a :: t
    else if p = a then a :: t
    else a :: plAdd t p

/-- `postingList.remove` on a sorted duplicate-free list. -/
def plRemove : List Nat → Nat → List Nat
  | [], _ => []
  | a :: t, p => if a = p then t else a :: plRemove t p

/-- The score switch of `Index.Put` (src/index/index.go lines 208-219). -/
def scoreOf (dpkg : DocPackage) : Nat :=
  if dpkg.projectRoot = "" then 3
  else if dpkg.errors.length > 0 then 0
  else if dpkg.synopsis.length = 0 then 1
  else 2

/-- Apply one `(term, mask)` entry to the reverse index: `addMask = 1` adds
the id to the posting list, `removeMask = 2` removes it, a combined mask
leaves it unchanged. -/
def applyTermMask (id : Nat) (ri : List (String × List Nat)) (tm : String × Nat) :
    List (String × List Nat) :=
  if tm.2 = 1 then setA ri tm.1 (plAdd (rindexGet ri tm.1) id)
  else if tm.2 = 2 then setA ri tm.1 (plRemove (rindexGet ri tm.1) id)
  else ri

/-- `Index.Put` (src/index/index.go lines 205-263). -/
def indexPut (idx : Index) (dpkg : DocPackage) : Index :=
  let score := scoreOf dpkg
  let pkg : IPackage :=
    ⟨⟨dpkg.importPath, dpkg.synopsis, dpkg.isCmd, score⟩, dpkg⟩
  let terms0 := addPackageTerms [] 1 dpkg
  let idPkgsIdsTerms :=
    match getA idx.ids dpkg.importPath with
    | some id =>
      let terms :=
        match idx.pkgs.get? id with
        | some (some old) => addPackageTerms terms0 2 old.dpkg
        | _ => terms0
      (id, idx.pkgs.set id (some pkg), idx.ids, terms)
    | none =>
      let id := idx.pkgs.length
      (id, idx.pkgs ++ [some pkg], setA idx.ids dpkg.importPath id, terms0)
  { pkgs := idPkgsIdsTerms.2.1
    ids := idPkgsIdsTerms.2.2.1
    rindex := idPkgsIdsTerms.2.2.2.foldl (applyTermMask idPkgsIdsTerms.1) idx.rindex }

/-- `Index.results`: keep the results of the non-nil packages of a posting
list. -/
def idxResults (idx : Index) (pl : List Nat) : List SearchResult :=
  pl.foldl
    (fun acc i =>
      match idx.pkgs.get? i with
      | some (some pkg) => acc ++ [pkg.result]
      | _ => acc) []

def SortByNone : Nat := 0
def SortByPath : Nat := 1
def SortByScore : Nat := 2

/-- `strings.Fields`: maximal runs of non-whitespace characters. -/
def fieldRuns : List Char → List Char → List String
  | [], acc => if acc = [] then [] else [String.mk acc.reverse]
  | c :: cs, acc =>
    if c.isWhitespace then
      (if acc = [] then fieldRuns cs [] else String.mk acc.reverse :: fieldRuns cs [])
    else fieldRuns cs (c :: acc)

def strFields (q : String) : List String := fieldRuns q.toList []

/-- `Index.Query` (src/index/index.go lines 308-346).  Note that the loop for
tokens beyond the second intersects with `fields[1]` again, exactly as the
source does.  `sort.Sort` is modelled by a merge sort with the source's
`Less`; the claims below query with `SortByNone`. -/
def indexQuery (idx : Index) (q : String) (sortBy : Nat) : List SearchResult :=
  let results :=
    if q = "all:" then
      idx.pkgs.foldl
        (fun acc op =>
          match op with
          | some pkg => if pkg.dpkg.name ≠ "" then acc ++ [pkg.result] else acc
          | none => acc) []
    else
      let fields := strFields q
      let pl : List Nat :=
        match fields with
        | [] => []
        | [f0] => rindexGet idx.rindex (makeTerm f0)
        | f0 :: f1 :: rest =>
          let pl := plIntersect (rindexGet idx.rindex (makeTerm f0)) []
            (rindexGet idx.rindex (makeTerm f1))
          rest.foldl
            (fun pl _ => plIntersect pl [] (rindexGet idx.rindex (makeTerm f1))) pl
      idxResults idx pl
  if sortBy = SortByPath then
    results.mergeSort (fun a b => a.importPath ≤ b.importPath)
  else if sortBy = SortByScore then
    results.mergeSort (fun a b => a.score ≥ b.score)
  else results

/-- The indexed package used to exhibit the N-way intersection defect: its
terms are `project:x.com/a`, `alpha` (the name) and `beta` (the final path
segment). -/
def c2pkg : DocPackage :=
  { name := "alpha", importPath := "x.com/a/beta", projectRoot := "x.com/a",
    projectName := "a", synopsis := "A synopsis.", doc := "Package alpha.",
    isCmd := false, imports := [], errors := [], consts := ["C"], vars := [],
    funcs := [], types := [], etag := "", updated := 0 }

def c2idx : Index := indexPut indexNew c2pkg

/-- **C2** (counterexample evaluation): on the three-term query
`"alpha beta gamma"` the `Index.Query` loop intersects with `fields[1]`
(`beta`) again instead of `fields[2]` (`gamma`), so the package at
`x.com/a/beta` is returned although the posting list of `gamma`'s digest is
empty — the claimed N-way intersection would return no package. -/
theorem Query_third_term_ignored :
    (indexQuery c2idx "alpha beta gamma" SortByNone).map (fun r => r.importPath) =
      ["x.com/a/beta"] ∧
    rindexGet c2idx.rindex (makeTerm "gamma") = [] := by decide

/-! ### `ValidRemotePath` (`src/doc/doc.go` lines 537-583) -/

/-- `unicode.IsSpace` restricted to the Latin-1 white-space runes
(`\t \n \v \f \r`, space, NEL, NBSP); the higher Unicode white-space code
points are omitted.  Both the validator and the spec-side predicates below
use this same set, and every path in the claims is ASCII. -/
def goIsSpace (c : Char) : Bool :=
  c = ' ' || c = '\t' || c = '\n' || c = Char.ofNat 0x0B || c = Char.ofNat 0x0C ||
  c = '\r' || c.toNat = 0x85 || c.toNat = 0xA0

/-- The punctuation rejected by the rune loop of `ValidRemotePath`
(see `isbadimport` in the Go compiler). -/
def goPunct : String := "!\"#$%&'()*,:;<=>?[]^`\x7b|\x7d"

/-- `strings.Split(s, "/")`; empty fields are kept, the result is never
empty. -/
def splitOn (sep : Char) : List Char → List Char → List String
  | [], acc => [String.mk acc.reverse]
  | c :: cs, acc =>
    if c = sep then String.mk acc.reverse :: splitOn sep cs []
    else splitOn sep cs (c :: acc)

def splitSlash (s : String) : List String := splitOn '/' s.toList []

/-- `path.Ext`: the suffix starting at the final dot of the final slash-free
segment, or the empty string. -/
def pathExtAux : List Char → List Char → Option (List Char)
  | [], _ => none
  | c :: t, acc =>
    if c = '/' then none
    else if c = '.' then some (c :: acc)
    else pathExtAux t (c :: acc)

def pathExt (s : String) : String :=
  match pathExtAux s.toList.reverse [] with
  | some l => String.mk l
  | none => ""

/-- A character of the `validHost` regular expression class `[-A-Za-z0-9]`. -/
def hostChar (c : Char) : Bool :=
  c = '-' || ('A' ≤ c && c ≤ 'Z') || ('a' ≤ c && c ≤ 'z') || ('0' ≤ c && c ≤ '9')

/-- `validHost.MatchString`: some prefix of `s` matches
`^[-A-Za-z0-9]+(?:\.[-A-Za-z0-9]+)+`.  Because `.` is not a host character,
the first `[-A-Za-z0-9]+` of any match is forced to be the maximal leading
run, so a match exists iff that run is nonempty and is followed by `.` and at
least one more host character. -/
def validHost (s : String) : Bool :=
  match s.toList.span hostChar with
  | ([], _) => false
  | (_ :: _, c :: rest) =>
    (c = '.') && (match rest with
      | [] => false
      | d :: _ => hostChar d)
  | (_ :: _, []) => false

/-- The `validTLD` table of src/doc/doc.go lines 217-535. -/
def validTLDlist : List String := [
  ".ac", ".ad", ".ae", ".aero", ".af", ".ag", ".ai", ".al", ".am", ".an", ".ao", ".aq", ".ar",
  ".arpa", ".as", ".asia", ".at", ".au", ".aw", ".ax", ".az", ".ba", ".bb", ".bd", ".be",
  ".bf", ".bg", ".bh", ".bi", ".biz", ".bj", ".bm", ".bn", ".bo", ".br", ".bs", ".bt", ".bv",
  ".bw", ".by", ".bz", ".ca", ".cat", ".cc", ".cd", ".cf", ".cg", ".ch", ".ci", ".ck", ".cl",
  ".cm", ".cn", ".co", ".com", ".coop", ".cr", ".cu", ".cv", ".cw", ".cx", ".cy", ".cz",
  ".de", ".dj", ".dk", ".dm", ".do", ".dz", ".ec", ".edu", ".ee", ".eg", ".er", ".es", ".et",
  ".eu", ".fi", ".fj", ".fk", ".fm", ".fo", ".fr", ".ga", ".gb", ".gd", ".ge", ".gf", ".gg",
  ".gh", ".gi", ".gl", ".gm", ".gn", ".gov", ".gp", ".gq", ".gr", ".gs", ".gt", ".gu", ".gw",
  ".gy", ".hk", ".hm", ".hn", ".hr", ".ht", ".hu", ".id", ".ie", ".il", ".im", ".in", ".info",
  ".int", ".io", ".iq", ".ir", ".is", ".it", ".je", ".jm", ".jo", ".jobs", ".jp", ".ke",
  ".kg", ".kh", ".ki", ".km", ".kn", ".kp", ".kr", ".kw", ".ky", ".kz", ".la", ".lb", ".lc",
  ".li", ".lk", ".lr", ".ls", ".lt", ".lu", ".lv", ".ly", ".ma", ".mc", ".md", ".me", ".mg",
  ".mh", ".mil", ".mk", ".ml", ".mm", ".mn", ".mo", ".mobi", ".mp", ".mq", ".mr", ".ms",
  ".mt", ".mu", ".museum", ".mv", ".mw", ".mx", ".my", ".mz", ".na", ".name", ".nc", ".ne",
  ".net", ".nf", ".ng", ".ni", ".nl", ".no", ".np", ".nr", ".nu", ".nz", ".om", ".org", ".pa",
  ".pe", ".pf", ".pg", ".ph", ".pk", ".pl", ".pm", ".pn", ".post", ".pr", ".pro", ".ps",
  ".pt", ".pw", ".py", ".qa", ".re", ".ro", ".rs", ".ru", ".rw", ".sa", ".sb", ".sc", ".sd",
  ".se", ".sg", ".sh", ".si", ".sj", ".sk", ".sl", ".sm", ".sn", ".so", ".sr", ".st", ".su",
  ".sv", ".sx", ".sy", ".sz", ".tc", ".td", ".tel", ".tf", ".tg", ".th", ".tj", ".tk", ".tl",
  ".tm", ".tn", ".to", ".tp", ".tr", ".travel", ".tt", ".tv", ".tw", ".tz", ".ua", ".ug",
  ".uk", ".us", ".uy", ".uz", ".va", ".vc", ".ve", ".vg", ".vi", ".vn", ".vu", ".wf", ".ws",
  ".xn--0zwm56d", ".xn--11b5bs3a9aj6g", ".xn--3e0b707e", ".xn--45brj9c", ".xn--80akhbyknj4f",
  ".xn--80ao21a", ".xn--90a3ac", ".xn--9t4b11yi5a", ".xn--clchc0ea0b2g2a9gcd", ".xn--deba0ad",
  ".xn--fiqs8s", ".xn--fiqz9s", ".xn--fpcrj9c3d", ".xn--fzc2c9e2c", ".xn--g6w251d", ".xn--
  gecrj9c", ".xn--h2brj9c", ".xn--hgbk6aj7f53bba", ".xn--hlcj6aya9esc7a", ".xn--j6w193g", ".xn
  --jxalpdlp", ".xn--kgbechtv", ".xn--kprw13d", ".xn--kpry57d", ".xn--lgbbat1ad8j", ".xn--
  mgb9awbf", ".xn--mgbaam7a8h", ".xn--mgbayh7gpa", ".xn--mgbbh1a71e", ".xn--mgbc0a9azcg", ".xn
  --mgberp4a5d4ar", ".xn--mgbx4cd0ab", ".xn--o3cw4h", ".xn--ogbpf8fl", ".xn--p1ai", ".xn--
  pgbs0dh", ".xn--s9brj9c", ".xn--wgbh1c", ".xn--wgbl6a", ".xn--xkc2al3hye2a", ".xn--
  xkc2dl3a5ee0h", ".xn--yfro4i67o", ".xn--ygbi2ammx", ".xn--zckzah", ".xxx", ".ye", ".yt",
  ".za", ".zm", ".zw"]

/-- Modelled from the spec: `StandardPackages`, the set of standard-library
package paths consulted by `ValidRemotePath`'s `/src/pkg/` rule; the map is
defined in the repository outside src/.  The claims need membership only of
the standard `compress` tree (the spec's examples reject
`github.com/user/repo/src/pkg/compress/gzip` and accept
`.../src/pkg/compress/somethingelse`), so the set lists the `compress`
packages and a few other well-known standard paths. -/
def standardPackages : List String :=
  ["compress/bzip2", "compress/flate", "compress/gzip", "compress/lzw",
   "compress/zlib", "encoding/json", "fmt", "io", "net/http", "os", "strings"]

/-- The `/src/pkg/` rule of `ValidRemotePath`: a positive first occurrence of
`"/src/pkg/"` whose suffix is a standard-library path. -/
def srcPkgStd (importPath : String) : Bool :=
  match strIndexAux "/src/pkg/".toList importPath.toList 0 with
  | some i => decide (0 < i) && standardPackages.contains
      (String.mk (importPath.toList.drop (i + "/src/pkg/".length)))
  | none => false

/-- One rune check of `ValidRemotePath`'s loop: reject the UTF-8 replacement
rune, control characters, backslash, white space and the punctuation set. -/
def runeOk (r : Char) : Bool :=
  !(r = Char.ofNat 0xFFFD) && !(r.toNat < 0x20 || r.toNat = 0x7f) &&
  !(r = '\\') && !(goIsSpace r) && !(goPunct.toList.contains r)

/-- One segment check for `parts[1:]`:
`len(part) == 0 || part[0] == '.' || part[0] == '_' || part == "testdata"`. -/
def firstCharIs (s : String) (c : Char) : Bool :=
  match s.toList with
  | [] => false
  | a :: _ => a = c

def partOk (part : String) : Bool :=
  !(decide (part = "") || firstCharIs part '.' || firstCharIs part '_' ||
    decide (part = "testdata"))

/-- `ValidRemotePath` (src/doc/doc.go lines 537-583).  `parts` is the
slash-split of the path and is never empty, so `parts[0]` is its `headD`. -/
def ValidRemotePath (importPath : String) : Bool :=
  importPath.toList.all runeOk &&
  validTLDlist.contains (pathExt ((splitSlash importPath).headD "")) &&
  validHost ((splitSlash importPath).headD "") &&
  (splitSlash importPath).tail.all partOk &&
  !(srcPkgStd importPath)

/-- The validator predicate exactly as the claim words it: every rune
printable with no whitespace, backslash or control character; first segment
ends in a recognized TLD and is a valid host; no later segment empty,
`testdata`, or starting with `.` or `_`. -/
def ClaimedValidRemotePath (s : String) : Prop :=
  (∀ r ∈ s.toList, 0x20 ≤ r.toNat ∧ r.toNat ≠ 0x7f ∧ goIsSpace r = false ∧ r ≠ '\\') ∧
  pathExt ((splitSlash s).headD "") ∈ validTLDlist ∧
  validHost ((splitSlash s).headD "") = true ∧
  (∀ part ∈ (splitSlash s).tail,
    part ≠ "" ∧ part ≠ "testdata" ∧ firstCharIs part '.' = false ∧
    firstCharIs part '_' = false)

instance (s : String) : Decidable (ClaimedValidRemotePath s) := by
  unfold ClaimedValidRemotePath
  infer_instance

/-- The claim's iff amended by what the code also rejects: the replacement
rune, the Go import-path punctuation set, and the `/src/pkg/` standard-
library suffix rule. -/
def AmendedValidRemotePath (s : String) : Prop :=
  (∀ r ∈ s.toList, r ≠ Char.ofNat 0xFFFD ∧ 0x20 ≤ r.toNat ∧ r.toNat ≠ 0x7f ∧
    r ≠ '\\' ∧ goIsSpace r = false ∧ r ∉ goPunct.toList) ∧
  pathExt ((splitSlash s).headD "") ∈ validTLDlist ∧
  validHost ((splitSlash s).headD "") = true ∧
  (∀ part ∈ (splitSlash s).tail,
    part ≠ "" ∧ part ≠ "testdata" ∧ firstCharIs part '.' = false ∧
    firstCharIs part '_' = false) ∧
  srcPkgStd s = false

theorem runeOk_iff (r : Char) :
    runeOk r = true ↔
      (r ≠ Char.ofNat 0xFFFD ∧ 0x20 ≤ r.toNat ∧ r.toNat ≠ 0x7f ∧ r ≠ '\\' ∧
       goIsSpace r = false ∧ r ∉ goPunct.toList) := by
  unfold runeOk
  simp only [Bool.and_eq_true, Bool.not_eq_true']
  constructor
  · rintro ⟨⟨⟨⟨h1, h2⟩, h3⟩, h4⟩, h5⟩
    rw [Bool.or_eq_false_iff] at h2
    refine ⟨of_decide_eq_false h1, Nat.le_of_not_lt (of_decide_eq_false h2.1),
      of_decide_eq_false h2.2, of_decide_eq_false h3, h4, ?_⟩
    intro hmem
    have hco : goPunct.toList.contains r = true := List.elem_iff.mpr hmem
    rw [h5] at hco
    cases hco
  · rintro ⟨h1, h2, h3, h4, h5, h6⟩
    refine ⟨⟨⟨⟨decide_eq_false h1, ?_⟩, decide_eq_false h4⟩, h5⟩, ?_⟩
    · rw [Bool.or_eq_false_iff]
      exact ⟨decide_eq_false (Nat.not_lt_of_le h2), decide_eq_false h3⟩
    · exact Bool.eq_false_iff.mpr (fun hc => h6 (List.elem_iff.mp hc))

theorem partOk_iff (part : String) :
    partOk part = true ↔
      (part ≠ "" ∧ part ≠ "testdata" ∧ firstCharIs part '.' = false ∧
       firstCharIs part '_' = false) := by
  unfold partOk
  simp only [Bool.not_eq_true', Bool.or_eq_false_iff, decide_eq_false_iff_not]
  tauto

/-- **C3** (amended): `ValidRemotePath` accepts a path iff every rune is
outside the control range, not `0x7f`, not the replacement rune, not
whitespace, not a backslash and not one of the import-path punctuation
characters; the first slash-segment ends in a recognized TLD and matches the
host pattern; no later segment is empty, `testdata`, or starts with `.` or
`_`; and the path does not end at a known standard-library path after
`/src/pkg/`.  In particular the claim's accept and reject examples hold. -/
theorem ValidRemotePath_characterization :
    (∀ s, ValidRemotePath s = true ↔ AmendedValidRemotePath s) ∧
    (ValidRemotePath "github.com/user/repo" = true ∧
     ValidRemotePath "example.org" = true ∧
     ValidRemotePath "github.com/user/repo/src/pkg/compress/somethingelse" = true) ∧
    (ValidRemotePath "foobar" = false ∧
     ValidRemotePath "foo." = false ∧
     ValidRemotePath ".bar" = false ∧
     ValidRemotePath "favicon.ico" = false ∧
     ValidRemotePath "github.com/user/repo/testdata/x" = false ∧
     ValidRemotePath "github.com/user/repo/_ignore/x" = false ∧
     ValidRemotePath "github.com/user/repo/.ignore/x" = false ∧
     ValidRemotePath "github.com/user/repo/src/pkg/compress/gzip" = false) := by
  refine ⟨?_, by decide, by decide⟩
  intro s
  unfold ValidRemotePath AmendedValidRemotePath
  simp only [Bool.and_eq_true, List.all_eq_true, Bool.not_eq_true',
    decide_eq_true_eq, runeOk_iff, partOk_iff, List.elem_iff]
  constructor
  · rintro ⟨⟨⟨⟨h1, h2⟩, h3⟩, h4⟩, h5⟩
    exact ⟨h1, h2, h3, h4, h5⟩
  · rintro ⟨h1, h2, h3, h4, h5⟩
    exact ⟨⟨⟨⟨h1, h2⟩, h3⟩, h4⟩, h5⟩

/-- **C3** (counterexample): the claimed iff fails on the code in both
directions it omits: `github.com/user/repo/src/pkg/compress/gzip` and
`example.org/a:b` both satisfy the claim's acceptance conditions, yet
`ValidRemotePath` rejects them (the `/src/pkg/` standard-library rule and the
punctuation set). -/
theorem ValidRemotePath_claim_counterexample :
    (ClaimedValidRemotePath "github.com/user/repo/src/pkg/compress/gzip" ∧
     ValidRemotePath "github.com/user/repo/src/pkg/compress/gzip" = false) ∧
    (ClaimedValidRemotePath "example.org/a:b" ∧
     ValidRemotePath "example.org/a:b" = false) := by decide

/-! ### Errors of the doc package (`src/doc/get.go`) -/

/-- The error values that `doc.Get` and the fetchers produce:
`ErrNotModified`, `NotFoundError`, `*RemoteError` (carrying the host) and the
internal `errNoMatch`. -/
inductive GetErr where
  | notModified
  | notFound (msg : String)
  | remoteErr (host : String)
  | noMatch
deriving DecidableEq, Repr

/-! ### `crawlDoc` and the background loop (`src/gddo-server/crawl.go`) -/

/-- Modelled from the spec: `doc.IsGoRepoPath`, membership of the standard
library set (defined in the repository outside src/). -/
def isGoRepoPath (path : String) : Bool := standardPackages.contains path

/-- The Go source tree mirror check of `crawlDoc`:
`strings.Index(path, "/src/pkg/") > 0 && doc.IsGoRepoPath(path[i+9:])`. -/
def mirrorSrcPkg (path : String) : Bool :=
  match strIndexAux "/src/pkg/".toList path.toList 0 with
  | some i => decide (0 < i) && isGoRepoPath (String.mk (path.toList.drop (i + 9)))
  | none => false

/-- The Go Frontend mirror check: `/libgo/go/` instead of `/src/pkg/`. -/
def mirrorLibgo (path : String) : Bool :=
  match strIndexAux "/libgo/go/".toList path.toList 0 with
  | some i => decide (0 < i) && isGoRepoPath (String.mk (path.toList.drop (i + 10)))
  | none => false

/-- The alternatives of `nestedProjectPat`, each wrapped in slashes. -/
def nestedLits : List String :=
  ["/github.com/", "/launchpad.net/", "/code.google.com/p/", "/bitbucket.org/",
   "/labix.org/"]

/-- `nestedProjectPat.FindStringIndex`: the smallest position at which one of
the alternatives occurs (at any single position at most one alternative can
match, so regexp alternation order is immaterial). -/
def nestedIdxAux : List Char → Nat → Option Nat
  | [], _ => none
  | c :: t, i =>
    if nestedLits.any (fun lit => hasPrefixL lit.toList (c :: t)) then some i
    else nestedIdxAux t (i + 1)

/-- The nested-project check of `crawlDoc`: a match of `nestedProjectPat`
whose suffix after the leading slash exists in the database (`db.Exists`,
supplied as the oracle `dbExists`). -/
def nestedCopy (dbExists : String → Bool) (path : String) : Bool :=
  match nestedIdxAux path.toList 0 with
  | some i => dbExists (String.mk (path.toList.drop (i + 1)))
  | none => false

/-- The store mutations that `crawlDoc` and the crawl loop can issue. -/
inductive CrawlAction where
  | actPut (p : DocPackage)
  | actTouch (p : Option DocPackage)
  | actDelete (path : String)
deriving DecidableEq, Repr

def crawlEtag (pdoc : Option DocPackage) : String :=
  match pdoc with
  | some p => p.etag
  | none => ""

/-- `crawlDoc` (src/gddo-server/crawl.go lines 36-97).  The database and the
dispatcher are oracles: `dbExists`/`dbBlocked` stand for `db.Exists` and
`db.IsBlocked`, `fetch` for `doc.Get`.  The returned triple is the function
result (package, error) together with the store actions issued. -/
def crawlDoc (dbExists dbBlocked : String → Bool)
    (fetch : String → String → Option DocPackage × Option GetErr)
    (path : String) (pdoc0 : Option DocPackage) :
    Option DocPackage × Option GetErr × List CrawlAction :=
  let etag := crawlEtag pdoc0
  let fetched : Option DocPackage × Option GetErr :=
    if mirrorSrcPkg path then (none, some (.notFound "Go source tree mirror."))
    else if mirrorLibgo path then
      (none, some (.notFound "Go Frontend source tree mirror."))
    else if nestedCopy dbExists path then (none, some (.notFound "Copy of other project."))
    else if dbBlocked path then (none, some (.notFound "Blocked."))
    else
      let res := fetch path etag
      (if res.2 = some .notModified then pdoc0 else res.1, res.2)
  match fetched.2 with
  | none =>
    (fetched.1, none,
      match fetched.1 with
      | some p => [CrawlAction.actPut p]
      | none => [])
  | some .notModified => (fetched.1, none, [CrawlAction.actTouch fetched.1])
  | some (.notFound _) => (none, none, [CrawlAction.actDelete path])
  | some e => (none, some e, [])

/-- One iteration of the background `crawl` loop (src/gddo-server/crawl.go
lines 99-123): run `crawlDoc` and, when it returns an error, touch the
record so the scheduler advances. -/
def crawlIteration (dbExists dbBlocked : String → Bool)
    (fetch : String → String → Option DocPackage × Option GetErr)
    (path : String) (pdoc0 : Option DocPackage) : List CrawlAction :=
  let r := crawlDoc dbExists dbBlocked fetch path pdoc0
  r.2.2 ++ (match r.2.1 with
    | some _ => [CrawlAction.actTouch pdoc0]
    | none => [])

/-- `touchScript` (src/database/database.go lines 218-236): advance the crawl
time of `path`'s id and of every package in `index:project:<root>` whose etag
equals the given one. -/
def touchScript (st : Store) (root path etag : String) (crawl : Int) : Store :=
  let idOpt := getA st.ids path
  let st1 : Store :=
    match idOpt with
    | some id => { st with crawl := setA st.crawl id crawl }
    | none => st
  let sibs := st1.index.filter (fun p => p.1 = "project:" ++ root)
  sibs.foldl
    (fun s pr =>
      if (match getA st1.pkgs pr.2 with
          | some r => decide (r.etag = etag)
          | none => false) = true ∧ some pr.2 ≠ idOpt
      then { s with crawl := setA s.crawl pr.2 crawl }
      else s) st1

theorem foldl_crawlOnly {α : Type} (f : Store → α → Store)
    (hf : ∀ s a, (f s a).pkgs = s.pkgs ∧ (f s a).index = s.index ∧ (f s a).ids = s.ids)
    (l : List α) (s : Store) :
    (l.foldl f s).pkgs = s.pkgs ∧ (l.foldl f s).index = s.index ∧
    (l.foldl f s).ids = s.ids := by
  induction l generalizing s with
  | nil => exact ⟨rfl, rfl, rfl⟩
  | cons a t ih =>
    rw [List.foldl_cons]
    obtain ⟨h1, h2, h3⟩ := ih (f s a)
    obtain ⟨g1, g2, g3⟩ := hf s a
    exact ⟨h1.trans g1, h2.trans g2, h3.trans g3⟩

/-- `touchScript` only writes the `crawl` zset: records and index sets (the
blob and the terms) are untouched. -/
theorem touchScript_frame (st : Store) (root path etag : String) (crawl : Int) :
    (touchScript st root path etag crawl).pkgs = st.pkgs ∧
    (touchScript st root path etag crawl).index = st.index ∧
    (touchScript st root path etag crawl).ids = st.ids := by
  unfold touchScript
  rcases hid : getA st.ids path with _ | id
  · refine foldl_crawlOnly _ ?_ _ _
    intro s a
    dsimp only
    split
    · exact ⟨rfl, rfl, rfl⟩
    · exact ⟨rfl, rfl, rfl⟩
  · refine foldl_crawlOnly _ ?_ _ _
    intro s a
    dsimp only
    split
    · exact ⟨rfl, rfl, rfl⟩
    · exact ⟨rfl, rfl, rfl⟩

/-- **C4**: `crawlDoc` maps each dispatcher result to exactly one store
action — a successful fetch issues `Put`, a not-modified result issues
`TouchLastCrawl` on the existing record (and `touchScript` writes only the
crawl zset, keeping blob and terms, see `touchScript_frame`), a not-found
error issues `Delete`, and any other error issues no store mutation and is
returned; the background crawl loop then touches the record whenever
`crawlDoc` returns an error. -/
theorem crawlDoc_outcome_mapping (dbExists dbBlocked : String → Bool)
    (fetch : String → String → Option DocPackage × Option GetErr)
    (path : String) (pdoc0 : Option DocPackage)
    (hms : mirrorSrcPkg path = false) (hml : mirrorLibgo path = false)
    (hnc : nestedCopy dbExists path = false) (hbl : dbBlocked path = false) :
    (∀ p, fetch path (crawlEtag pdoc0) = (some p, none) →
      crawlDoc dbExists dbBlocked fetch path pdoc0 =
        (some p, none, [CrawlAction.actPut p])) ∧
    (∀ p1, fetch path (crawlEtag pdoc0) = (p1, some .notModified) →
      crawlDoc dbExists dbBlocked fetch path pdoc0 =
        (pdoc0, none, [CrawlAction.actTouch pdoc0])) ∧
    (∀ p1 m, fetch path (crawlEtag pdoc0) = (p1, some (.notFound m)) →
      crawlDoc dbExists dbBlocked fetch path pdoc0 =
        (none, none, [CrawlAction.actDelete path])) ∧
    (∀ p1 h, fetch path (crawlEtag pdoc0) = (p1, some (.remoteErr h)) →
      crawlDoc dbExists dbBlocked fetch path pdoc0 =
        (none, some (.remoteErr h), []) ∧
      crawlIteration dbExists dbBlocked fetch path pdoc0 =
        [CrawlAction.actTouch pdoc0]) := by
  refine ⟨?_, ?_, ?_, ?_⟩
  · intro p hf
    simp [crawlDoc, hms, hml, hnc, hbl, hf]
  · intro p1 hf
    simp [crawlDoc, hms, hml, hnc, hbl, hf]
  · intro p1 m hf
    simp [crawlDoc, hms, hml, hnc, hbl, hf]
  · intro p1 h hf
    constructor
    · simp [crawlDoc, hms, hml, hnc, hbl, hf]
    · simp [crawlIteration, crawlDoc, hms, hml, hnc, hbl, hf]

/-- A package used by the C4 and C6 witnesses. -/
def c4pkg : DocPackage :=
  { name := "x", importPath := "example.org/x", projectRoot := "example.org/x",
    projectName := "x", synopsis := "", doc := "", isCmd := false, imports := [],
    errors := [], consts := [], vars := [], funcs := [], types := [],
    etag := "deadbeef", updated := 0 }

theorem crawlDoc_outcome_mapping_witness :
    mirrorSrcPkg "example.org/x" = false ∧
    crawlDoc (fun _ => false) (fun _ => false) (fun _ _ => (some c4pkg, none))
        "example.org/x" none =
      (some c4pkg, none, [CrawlAction.actPut c4pkg]) :=
  ⟨by decide,
   (crawlDoc_outcome_mapping (fun _ => false) (fun _ => false)
     (fun _ _ => (some c4pkg, none)) "example.org/x" none
     (by decide) (by decide) (by decide) (by decide)).1 c4pkg rfl⟩

/-! ### `getDoc` and the crawl/timeout race (`src/gddo-server/main.go`) -/

def humanRequest : Nat := 0
def robotRequest : Nat := 1
def queryRequest : Nat := 2
def refreshRequest : Nat := 3

/-- The `-get_timeout` and `-first_get_timeout` flag defaults (8s and 5s),
in seconds. -/
def getTimeout : Int := 8
def firstGetTimeout : Int := 5

/-- The `needsCrawl` switch of `getDoc` (src/gddo-server/main.go lines
66-74).  Times are Unix seconds; the zero `time.Time` is 0, and
`time.Now().Add(-24h).After(lastCrawl)` is `now - 86400 > lastCrawl`. -/
def needsCrawl (requestType : Nat) (now lastCrawl : Int) (pkgsLen : Nat) : Bool :=
  if requestType = queryRequest then decide (lastCrawl = 0) && decide (pkgsLen = 0)
  else if requestType = humanRequest then decide (now - 86400 > lastCrawl)
  else if requestType = robotRequest then decide (lastCrawl = 0) && decide (pkgsLen > 0)
  else false

/-- The observable outcome of the `select` in `getDoc`: either the crawl
goroutine finished first with its result, or the timer fired first. -/
inductive RaceOutcome where
  | finished (pdoc : Option DocPackage) (err : Option GetErr)
  | timedOut
deriving DecidableEq, Repr

/-- The error surfaced by `getDoc`: `web.Error{StatusNotFound}`, or a crawl
error propagated to the error handler. -/
inductive WebErr where
  | notFound
  | crawlErr (e : GetErr)
deriving DecidableEq, Repr

structure GetDocOut where
  crawlRan : Bool
  deadline : Int
  pdoc : Option DocPackage
  err : Option WebErr
deriving DecidableEq, Repr

/-- `getDoc` (src/gddo-server/main.go lines 58-108).  The database record
(`pdoc0`, its `lastCrawl` and the subdirectory count) and the race outcome
are inputs; `deadline` reports the timeout the race was run against. -/
def getDoc (requestType : Nat) (now lastCrawl : Int) (pdoc0 : Option DocPackage)
    (pkgsLen : Nat) (race : RaceOutcome) : GetDocOut :=
  if needsCrawl requestType now lastCrawl pkgsLen then
    let timeout := if pdoc0 = none then firstGetTimeout else getTimeout
    match race with
    | .finished rpdoc rerr =>
      let pdoc := if rerr = none then rpdoc else pdoc0
      match rerr with
      | none => ⟨true, timeout, pdoc, none⟩
      | some e =>
        if pdoc ≠ none then ⟨true, timeout, pdoc, none⟩
        else ⟨true, timeout, pdoc, some (.crawlErr e)⟩
    | .timedOut =>
      if pdoc0 ≠ none then ⟨true, timeout, pdoc0, none⟩
      else ⟨true, timeout, none, some .notFound⟩
  else ⟨false, 0, pdoc0, none⟩

/-- **C5**: a request-driven crawl in `getDoc` races the crawl against a
deadline of `getTimeout` when a stored record exists and `firstGetTimeout`
when none does; if the deadline elapses or the crawl fails while a stale
record exists, the stale record is served with the error dropped; if the
deadline elapses with no record, the request reports not-found. -/
theorem getDoc_race_fallback (requestType : Nat) (now lastCrawl : Int)
    (pdoc0 : Option DocPackage) (pkgsLen : Nat)
    (hneeds : needsCrawl requestType now lastCrawl pkgsLen = true) :
    (∀ race, (getDoc requestType now lastCrawl pdoc0 pkgsLen race).deadline =
      if pdoc0 = none then firstGetTimeout else getTimeout) ∧
    (∀ p, pdoc0 = some p →
      getDoc requestType now lastCrawl pdoc0 pkgsLen .timedOut =
        ⟨true, getTimeout, some p, none⟩) ∧
    (∀ p rp e, pdoc0 = some p →
      getDoc requestType now lastCrawl pdoc0 pkgsLen (.finished rp (some e)) =
        ⟨true, getTimeout, some p, none⟩) ∧
    (pdoc0 = none →
      getDoc requestType now lastCrawl pdoc0 pkgsLen .timedOut =
        ⟨true, firstGetTimeout, none, some .notFound⟩) := by
  refine ⟨?_, ?_, ?_, ?_⟩
  · intro race
    rcases race with ⟨rpdoc, rerr⟩ | _
    · rcases rerr with _ | e
      · simp [getDoc, hneeds]
      · by_cases hq : pdoc0 = none <;> simp [getDoc, hneeds, hq]
    · by_cases hq : pdoc0 = none <;> simp [getDoc, hneeds, hq]
  · intro p hp
    simp [getDoc, hneeds, hp]
  · intro p rp e hp
    simp [getDoc, hneeds, hp]
  · intro hp
    simp [getDoc, hneeds, hp]

theorem getDoc_race_fallback_witness :
    needsCrawl humanRequest 100000000 1 0 = true ∧
    getDoc humanRequest 100000000 1 (some c4pkg) 0 .timedOut =
      ⟨true, getTimeout, some c4pkg, none⟩ :=
  ⟨by decide,
   (getDoc_race_fallback humanRequest 100000000 1 (some c4pkg) 0 (by decide)).2.1
     c4pkg rfl⟩

/-! ### `doc.Get` and the ETag version prefix (`src/doc/get.go` lines 223-254) -/

/-- Modelled from the spec: `PackageVersion`, the version string prefixed to
every stored ETag (declared in the doc package outside src/); the claims
depend only on the prefix discipline, not on its value. -/
def PackageVersion : String := "6"

def versionPrefix : String := PackageVersion ++ "-"

structure GetResult where
  pdoc : Option DocPackage
  err : Option GetErr
deriving DecidableEq, Repr

/-- The ETag stripping at the top of `Get`: drop the version prefix, or
treat the ETag as absent. -/
def stripEtag (etag : String) : String :=
  if goHasPrefix etag versionPrefix then
    String.mk (etag.toList.drop versionPrefix.length)
  else ""

/-- The final `pdoc.Etag = versionPrefix + pdoc.Etag` of `Get`. -/
def etagPost (r : GetResult) : GetResult :=
  ⟨r.pdoc.map (fun p => { p with etag := versionPrefix ++ p.etag }), r.err⟩

/-- The `err == errNoMatch → NotFoundError` rewrite of `Get`. -/
def noMatchPost (r : GetResult) : GetResult :=
  if r.err = some .noMatch then ⟨r.pdoc, some (.notFound "Import path not valid.")⟩
  else r

/-- The body of `Get` after ETag stripping: route to the standard-library
fetcher, the static services or meta discovery (all oracles here), then
rewrite `errNoMatch` and prefix the returned ETag. -/
def GetCore (isGoRepo isValidRemote : String → Bool)
    (getStandardDoc getStaticO getDynamic : String → String → GetResult)
    (path etag : String) : GetResult :=
  etagPost (noMatchPost
    (if isGoRepo path then getStandardDoc path etag
     else if isValidRemote path then
       let r := getStaticO path etag
       if r.err = some .noMatch then getDynamic path etag else r
     else ⟨none, some .noMatch⟩))

/-- `Get` (src/doc/get.go lines 223-254). -/
def Get (isGoRepo isValidRemote : String → Bool)
    (getStandardDoc getStaticO getDynamic : String → String → GetResult)
    (path etag : String) : GetResult :=
  GetCore isGoRepo isValidRemote getStandardDoc getStaticO getDynamic path
    (stripEtag etag)

theorem stripEtag_prefixed (raw : String) : stripEtag (versionPrefix ++ raw) = raw := by
  unfold stripEtag
  have hp : goHasPrefix (versionPrefix ++ raw) versionPrefix = true := by
    unfold goHasPrefix
    rw [show (versionPrefix ++ raw).toList = versionPrefix.toList ++ raw.toList by simp]
    exact hasPrefixL_append _ _
  rw [if_pos hp]
  rw [show (versionPrefix ++ raw).toList = versionPrefix.toList ++ raw.toList by simp]
  rw [show versionPrefix.length = versionPrefix.toList.length from rfl]
  rw [List.drop_left]
  cases raw
  rfl

theorem etagPost_prefix (r : GetResult) (p : DocPackage)
    (h : (etagPost r).pdoc = some p) : goHasPrefix p.etag versionPrefix = true := by
  unfold etagPost at h
  rcases hr : r.pdoc with _ | q
  · rw [hr] at h
    simp at h
  · rw [hr] at h
    simp only [Option.map_some', Option.some.injEq] at h
    rw [← h]
    show hasPrefixL versionPrefix.toList (versionPrefix ++ q.etag).toList = true
    rw [show (versionPrefix ++ q.etag).toList = versionPrefix.toList ++ q.etag.toList
      by simp]
    exact hasPrefixL_append _ _

/-- **C6**: `Get` strips `PackageVersion + "-"` from the supplied ETag before
invoking any fetcher, treats an ETag without that exact prefix as absent
(passing the empty string), and every returned package's Etag field begins
with `PackageVersion + "-"`. -/
theorem Get_etag_discipline (isGoRepo isValidRemote : String → Bool)
    (getStandardDoc getStaticO getDynamic : String → String → GetResult)
    (path : String) :
    (∀ raw, Get isGoRepo isValidRemote getStandardDoc getStaticO getDynamic path
        (versionPrefix ++ raw) =
      GetCore isGoRepo isValidRemote getStandardDoc getStaticO getDynamic path raw) ∧
    (∀ etag, goHasPrefix etag versionPrefix = false →
      Get isGoRepo isValidRemote getStandardDoc getStaticO getDynamic path etag =
        GetCore isGoRepo isValidRemote getStandardDoc getStaticO getDynamic path "") ∧
    (∀ etag p,
      (Get isGoRepo isValidRemote getStandardDoc getStaticO getDynamic path
        etag).pdoc = some p →
      goHasPrefix p.etag versionPrefix = true) := by
  refine ⟨?_, ?_, ?_⟩
  · intro raw
    unfold Get
    rw [stripEtag_prefixed]
  · intro etag hpre
    unfold Get
    unfold stripEtag
    rw [hpre]
    simp
  · intro etag p hp
    exact etagPost_prefix _ p hp

theorem Get_etag_discipline_witness :
    goHasPrefix "zz" versionPrefix = false ∧
    Get (fun _ => true) (fun _ => true) (fun _ _ => ⟨some c4pkg, none⟩)
        (fun _ _ => ⟨none, some .noMatch⟩) (fun _ _ => ⟨none, some .noMatch⟩)
        "fmt" "zz" =
      GetCore (fun _ => true) (fun _ => true) (fun _ _ => ⟨some c4pkg, none⟩)
        (fun _ _ => ⟨none, some .noMatch⟩) (fun _ _ => ⟨none, some .noMatch⟩)
        "fmt" "" :=
  ⟨by decide,
   (Get_etag_discipline (fun _ => true) (fun _ => true) (fun _ _ => ⟨some c4pkg, none⟩)
     (fun _ _ => ⟨none, some .noMatch⟩) (fun _ _ => ⟨none, some .noMatch⟩)
     "fmt").2.1 "zz" (by decide)⟩

/-! ### `getStatic` and the service table (`src/doc/get.go` lines 54-68, 198-221) -/

/-- The five statically known services, by their fetchers. -/
inductive SvcTag where
  | github
  | google
  | bitbucket
  | launchpad
  | general
deriving DecidableEq, Repr

/-- A `service` entry: the compiled pattern is an oracle returning the named
sub-matches of `FindStringSubmatch`/`SubexpNames`, or `none` on a miss. -/
structure Service where
  pat : String → Option (List (String × String))
  tag : SvcTag
  pre : String

/-- The `services` table (src/doc/get.go lines 62-68), with the patterns as
parameters. -/
def services (pGithub pGoogle pBitbucket pLaunchpad pGeneral :
    String → Option (List (String × String))) : List Service :=
  [⟨pGithub, .github, "github.com/"⟩,
   ⟨pGoogle, .google, "code.google.com/"⟩,
   ⟨pBitbucket, .bitbucket, "bitbucket.org/"⟩,
   ⟨pLaunchpad, .launchpad, "launchpad.net/"⟩,
   ⟨pGeneral, .general, ""⟩]

/-- The result of `getStatic`: invoke a fetcher with the match map and the
etag, fail with `NotFoundError`, or report `errNoMatch`. -/
inductive StaticResult where
  | fetched (tag : SvcTag) (captures : List (String × String)) (etag : String)
  | notFound (msg : String)
  | noMatch
deriving DecidableEq, Repr

/-- `getStatic` (src/doc/get.go lines 200-221): first service whose prefix
matches decides; a prefix hit with a pattern miss is not-found unless the
prefix is empty. -/
def getStatic (svcs : List Service) (path etag : String) : StaticResult :=
  match svcs with
  | [] => .noMatch
  | s :: rest =>
    if goHasPrefix path s.pre then
      match s.pat path with
      | none =>
        if s.pre ≠ "" then
          .notFound "Import path prefix matches known service, but regexp does not."
        else getStatic rest path etag
      | some caps => .fetched s.tag (("importPath", path) :: caps) etag
    else getStatic rest path etag

theorem goHasPrefix_first {s pre : String} {c : Char} {rest : List Char}
    (hpre : pre.toList = c :: rest) (h : goHasPrefix s pre = true) :
    s.toList.head? = some c := by
  unfold goHasPrefix at h
  rw [hpre] at h
  cases hs : s.toList with
  | nil => rw [hs] at h; simp [hasPrefixL] at h
  | cons d t =>
    rw [hs] at h
    simp only [hasPrefixL, Bool.and_eq_true, decide_eq_true_eq] at h
    rw [h.1]
    rfl

theorem goHasPrefix_clash {s p q : String} {c d : Char} {r1 r2 : List Char}
    (hp : p.toList = c :: r1) (hq : q.toList = d :: r2) (hcd : d ≠ c)
    (h1 : goHasPrefix s p = true) : goHasPrefix s q = false := by
  cases hqv : goHasPrefix s q with
  | false => rfl
  | true =>
    have e1 := goHasPrefix_first hp h1
    have e2 := goHasPrefix_first hq hqv
    rw [e1] at e2
    injection e2 with e2
    exact absurd e2.symm hcd

theorem goHasPrefix_false_head {s q : String} {c d : Char} {r2 : List Char}
    (hq : q.toList = d :: r2) (hcd : c ≠ d) (hhead : s.toList.head? = some c) :
    goHasPrefix s q = false := by
  cases hv : goHasPrefix s q with
  | false => rfl
  | true =>
    have h2 := goHasPrefix_first hq hv
    rw [hhead] at h2
    injection h2 with h2
    exact absurd h2 hcd

/-- **C7**: `getStatic` tries the services in declared order; a path with a
service's non-empty prefix whose regular expression misses yields not-found
without trying any later service; a regex miss on the catch-all service with
the empty prefix falls through to the distinguished no-match result; a regex
hit invokes the service's fetcher with the named sub-match map; and within
`Get`, the no-match result from the static dispatcher triggers meta
discovery (`getDynamic`). -/
theorem getStatic_prefix_gate
    (pGithub pGoogle pBitbucket pLaunchpad pGeneral :
      String → Option (List (String × String)))
    (path etag : String) :
    (goHasPrefix path "github.com/" = true → pGithub path = none →
      getStatic (services pGithub pGoogle pBitbucket pLaunchpad pGeneral) path etag =
        .notFound "Import path prefix matches known service, but regexp does not.") ∧
    (goHasPrefix path "code.google.com/" = true → pGoogle path = none →
      getStatic (services pGithub pGoogle pBitbucket pLaunchpad pGeneral) path etag =
        .notFound "Import path prefix matches known service, but regexp does not.") ∧
    (goHasPrefix path "bitbucket.org/" = true → pBitbucket path = none →
      getStatic (services pGithub pGoogle pBitbucket pLaunchpad pGeneral) path etag =
        .notFound "Import path prefix matches known service, but regexp does not.") ∧
    (goHasPrefix path "launchpad.net/" = true → pLaunchpad path = none →
      getStatic (services pGithub pGoogle pBitbucket pLaunchpad pGeneral) path etag =
        .notFound "Import path prefix matches known service, but regexp does not.") ∧
    (goHasPrefix path "github.com/" = true → ∀ caps, pGithub path = some caps →
      getStatic (services pGithub pGoogle pBitbucket pLaunchpad pGeneral) path etag =
        .fetched .github (("importPath", path) :: caps) etag) ∧
    (goHasPrefix path "github.com/" = false →
     goHasPrefix path "code.google.com/" = false →
     goHasPrefix path "bitbucket.org/" = false →
     goHasPrefix path "launchpad.net/" = false →
      (pGeneral path = none →
        getStatic (services pGithub pGoogle pBitbucket pLaunchpad pGeneral) path etag =
          .noMatch) ∧
      (∀ caps, pGeneral path = some caps →
        getStatic (services pGithub pGoogle pBitbucket pLaunchpad pGeneral) path etag =
          .fetched .general (("importPath", path) :: caps) etag)) ∧
    (∀ (isGoRepo isValidRemote : String → Bool)
       (getStandardDoc getStaticO getDynamic : String → String → GetResult),
      isGoRepo path = false → isValidRemote path = true →
      getStaticO path etag = ⟨none, some .noMatch⟩ →
      GetCore isGoRepo isValidRemote getStandardDoc getStaticO getDynamic path etag =
        etagPost (noMatchPost (getDynamic path etag))) := by
  refine ⟨?_, ?_, ?_, ?_, ?_, ?_, ?_⟩
  · intro hpre hmiss
    simp [getStatic, services, hpre, hmiss]
  · intro hpre hmiss
    have hhead := @goHasPrefix_first path "code.google.com/" 'c'
      ("ode.google.com/".toList) (by decide) hpre
    have hng : goHasPrefix path "github.com/" = false :=
      @goHasPrefix_false_head path "github.com/" 'c' 'g' ("ithub.com/".toList)
        (by decide) (by decide) hhead
    simp [getStatic, services, hng, hpre, hmiss]
  · intro hpre hmiss
    have hhead := @goHasPrefix_first path "bitbucket.org/" 'b'
      ("itbucket.org/".toList) (by decide) hpre
    have hng : goHasPrefix path "github.com/" = false :=
      @goHasPrefix_false_head path "github.com/" 'b' 'g' ("ithub.com/".toList)
        (by decide) (by decide) hhead
    have hnc : goHasPrefix path "code.google.com/" = false :=
      @goHasPrefix_false_head path "code.google.com/" 'b' 'c'
        ("ode.google.com/".toList) (by decide) (by decide) hhead
    simp [getStatic, services, hng, hnc, hpre, hmiss]
  · intro hpre hmiss
    have hhead := @goHasPrefix_first path "launchpad.net/" 'l'
      ("aunchpad.net/".toList) (by decide) hpre
    have hng : goHasPrefix path "github.com/" = false :=
      @goHasPrefix_false_head path "github.com/" 'l' 'g' ("ithub.com/".toList)
        (by decide) (by decide) hhead
    have hnc : goHasPrefix path "code.google.com/" = false :=
      @goHasPrefix_false_head path "code.google.com/" 'l' 'c'
        ("ode.google.com/".toList) (by decide) (by decide) hhead
    have hnb : goHasPrefix path "bitbucket.org/" = false :=
      @goHasPrefix_false_head path "bitbucket.org/" 'l' 'b'
        ("itbucket.org/".toList) (by decide) (by decide) hhead
    simp [getStatic, services, hng, hnc, hnb, hpre, hmiss]
  · intro hpre caps hcaps
    simp [getStatic, services, hpre, hcaps]
  · intro hng hnc hnb hnl
    have hemp : goHasPrefix path "" = true := rfl
    constructor
    · intro hmiss
      simp [getStatic, services, hng, hnc, hnb, hnl, hemp, hmiss]
    · intro caps hcaps
      simp [getStatic, services, hng, hnc, hnb, hnl, hemp, hcaps]
  · intro isGoRepo isValidRemote getStandardDoc getStaticO getDynamic hgo hval hstat
    unfold GetCore
    rw [hgo, hval, hstat]
    simp

theorem getStatic_prefix_gate_witness :
    goHasPrefix "github.com/u/r" "github.com/" = true ∧
    getStatic (services (fun _ => none) (fun _ => none) (fun _ => none)
        (fun _ => none) (fun _ => none)) "github.com/u/r" "e" =
      .notFound "Import path prefix matches known service, but regexp does not." :=
  ⟨by decide,
   (getStatic_prefix_gate (fun _ => none) (fun _ => none) (fun _ => none)
     (fun _ => none) (fun _ => none) "github.com/u/r" "e").1 (by decide) rfl⟩

/-! ### C8: canonical method signatures (doc/method_set.go fingerprinter) -/

/-- `predeclared` map from the source (path_test.go / shared by method_set.go):
0 = notPredeclared, 1 = predeclaredType, 2 = predeclaredConstant,
3 = predeclaredFunction. -/
def predeclared (s : String) : Nat :=
  if s ∈ ["bool", "byte", "complex128", "complex64", "error", "float32",
          "float64", "int16", "int32", "int64", "int8", "int", "rune",
          "string", "uint16", "uint32", "uint64", "uint8", "uint",
          "uintptr"] then 1
  else if s ∈ ["true", "false", "iota", "nil"] then 2
  else if s ∈ ["append", "cap", "close", "complex", "copy", "delete", "imag",
               "len", "make", "new", "panic", "print", "println", "real",
               "recover"] then 3
  else 0

def predeclaredType : Nat := 1

inductive ChanDir where
  | both | recv | send
deriving DecidableEq

/-- Shallow embedding of the `go/ast` expression fragment consumed by
`fingerprinter.writeNode`.  Field lists (`*ast.FieldList`) are folded into the
same inductive as `fnil`/`fcons` so that all recursion is structural and the
writer kernel-reduces; `fnone` is a nil `*ast.FieldList` (e.g. absent results).
`ident` carries `resolved = (n.Obj != nil)` as established by
`ast.NewPackage` resolution; `sel` carries the selector base pre-resolved to
the import spec's quoted `Path.Value` (`nodePath`), or `none` when resolution
failed (in which case `writeNode` aborts).  Array lengths are either absent
(`arrN`) or an expression (`arrL`); `lit` is a `*ast.BasicLit` with its raw
`Value`. -/
inductive GoE where
  | ident (name : String) (resolved : Bool)
  | sel (pathVal : Option String) (selName : String)
  | ellipsis (elt : GoE)
  | mapT (k v : GoE)
  | arrN (elt : GoE)
  | arrL (len elt : GoE)
  | chanT (d : ChanDir) (v : GoE)
  | paren (x : GoE)
  | binop (x : GoE) (op : String) (y : GoE)
  | lit (v : String)
  | star (x : GoE)
  | funcT (params results : GoE)
  | ifaceT (fields : GoE)
  | structT (fields : GoE)
  | fnil
  | fnone
  | fcons (names : List String) (tag : Option String) (typ : GoE) (rest : GoE)
deriving DecidableEq

/-- `(*ast.FieldList).NumFields`: each field counts `max 1 (len names)`. -/
def numFields : GoE → Nat
  | .fcons names _ _ rest => max 1 names.length + numFields rest
  | _ => 0

def isFnone : GoE → Bool
  | .fnone => true
  | _ => false

/-- `strconv.Unquote` succeeds on a struct-tag literal.  Modelled for the
escape-free double-quoted literals that occur in this package: the raw value
starts and ends with `"`, has length at least 2, and contains no interior
quote, backslash or control character.  On failure `writeStruct` quotes the
zero string, emitting `""`. -/
def unquoteOk (v : String) : Bool :=
  decide (2 ≤ v.toList.length) &&
  decide (v.toList.head? = some '"') &&
  decide (v.toList.getLast? = some '"') &&
  (v.toList.drop 1).dropLast.all
    (fun c => decide (c ≠ '"') && decide (c ≠ '\\') && decide (' ' ≤ c))

/-- Writer modes for the single structural traversal: `.node` is
`writeNode`; `.funcSig` is `writeFunc` applied to a `funcT` (parameters then
results, results parenthesized iff the list is non-nil with more than one
field); `.paramsBody f` is the interior of `writeParams` with `f` marking the
first field (separator state `sep`); `.structBody`/`.ifaceBody` likewise for
`writeStruct`/`writeInterface`.  `writeFunc`'s body is inlined at each use
site (node `funcT`, `funcSig`, interface method entries) so the recursion
stays structural on the expression. -/
inductive WMode where
  | node | funcSig
  | paramsBody (first : Bool)
  | structBody (first : Bool)
  | ifaceBody (first : Bool)

/-- `fingerprinter.writeNode` / `writeFunc` / `writeParams` / `writeStruct` /
`writeInterface`, with the byte buffer replaced by the returned string and the
panic-based `abort` by `Except`.  `qp` is `p.quotedPath`
(`strconv.Quote(p.path)`). -/
def fpWrite (qp : String) : GoE → WMode → Except String String
  | .ident name resolved, .node =>
    if resolved || !(predeclared name = predeclaredType) then
      .ok (qp ++ "." ++ name)
    else .ok name
  | .sel pathVal selName, .node =>
    match pathVal with
    | some p => .ok (p ++ "." ++ selName)
    | none => .error "not resolved"
  | .ellipsis elt, .node => do
    let s ← fpWrite qp elt .node
    .ok ("..." ++ s)
  | .mapT k v, .node => do
    let ks ← fpWrite qp k .node
    let vs ← fpWrite qp v .node
    .ok ("map[" ++ ks ++ "]" ++ vs)
  | .arrN elt, .node => do
    let s ← fpWrite qp elt .node
    .ok ("[]" ++ s)
  | .arrL len elt, .node => do
    let ls ← fpWrite qp len .node
    let s ← fpWrite qp elt .node
    .ok ("[" ++ ls ++ "]" ++ s)
  | .chanT d v, .node => do
    let s ← fpWrite qp v .node
    match d with
    | .recv => .ok ("<-chan " ++ s)
    | .send => .ok ("chan<- " ++ s)
    | .both => .ok ("chan " ++ s)
  | .paren x, .node => do
    let s ← fpWrite qp x .node
    .ok ("(" ++ s ++ ")")
  | .binop x op y, .node => do
    let xs ← fpWrite qp x .node
    let ys ← fpWrite qp y .node
    .ok (xs ++ op ++ ys)
  | .lit v, .node => .ok v
  | .star x, .node => do
    let s ← fpWrite qp x .node
    .ok ("*" ++ s)
  | .funcT params results, .node => do
    let bp ← fpWrite qp params (.paramsBody true)
    let br ← fpWrite qp results (.paramsBody true)
    let pr := !(isFnone results) && decide (1 < numFields results)
    .ok ("func(" ++ bp ++ ")" ++ (if pr then "(" ++ br ++ ")" else br))
  | .funcT params results, .funcSig => do
    let bp ← fpWrite qp params (.paramsBody true)
    let br ← fpWrite qp results (.paramsBody true)
    let pr := !(isFnone results) && decide (1 < numFields results)
    .ok ("(" ++ bp ++ ")" ++ (if pr then "(" ++ br ++ ")" else br))
  | .ifaceT fields, .node => do
    let b ← fpWrite qp fields (.ifaceBody true)
    .ok ("interface\x7b" ++ b ++ "\x7d")
  | .structT fields, .node => do
    let b ← fpWrite qp fields (.structBody true)
    .ok ("struct\x7b" ++ b ++ "\x7d")
  | .fcons names _ typ rest, .paramsBody first => do
    let s ← fpWrite qp typ .node
    let m := max 1 names.length
    let items := String.intercalate "," (List.replicate m s)
    let tail ← fpWrite qp rest (.paramsBody false)
    .ok ((if first then "" else ",") ++ items ++ tail)
  | .fnil, .node => .error "unexpected"
  | .fnone, .node => .error "unexpected"
  | .fcons _ _ _ _, .node => .error "unexpected"
  | _, .paramsBody _ => .ok ""
  | .fcons names tag typ rest, .structBody first => do
    let s ← fpWrite qp typ .node
    let tagStr := match tag with
      | none => ""
      | some v => " " ++ (if unquoteOk v then v else "\x22\x22")
    let entry := fun (n : Option String) =>
      (match n with | some nm => nm ++ " " | none => "") ++ s ++ tagStr
    let ns := if names.isEmpty then [(none : Option String)] else names.map some
    let items := String.intercalate ";" (ns.map entry)
    let tail ← fpWrite qp rest (.structBody false)
    .ok ((if first then "" else ";") ++ items ++ tail)
  | _, .structBody _ => .ok ""
  | .fcons names _ typ rest, .ifaceBody first => do
    let entryBody ←
      match typ with
      | .ident nm resolved => fpWrite qp (.ident nm resolved) .node
      | .sel p s => fpWrite qp (.sel p s) .node
      | .funcT params results => do
        let bp ← fpWrite qp params (.paramsBody true)
        let br ← fpWrite qp results (.paramsBody true)
        let pr := !(isFnone results) && decide (1 < numFields results)
        pure ("(" ++ bp ++ ")" ++ (if pr then "(" ++ br ++ ")" else br))
      | _ => .error "unexpected"
    let entry := fun (n : Option String) =>
      (match typ with
       | .funcT _ _ => (match n with | some nm => nm | none => "") ++ entryBody
       | _ => entryBody)
    let ns := if names.isEmpty then [(none : Option String)] else names.map some
    let items := String.intercalate ";" (ns.map entry)
    let tail ← fpWrite qp rest (.ifaceBody false)
    .ok ((if first then "" else ";") ++ items ++ tail)
  | _, .ifaceBody _ => .ok ""
  | _, .funcSig => .error "unexpected"

/-- `fingerprinter.method` minus the MD5: the canonical signature string of a
method declaration's `*ast.FuncType`, written with `p.writeFunc(fd.typ)` for
the package `github.com/owner/repo` (so `quotedPath` is the Go-quoted
`"github.com/owner/repo"`). -/
def canonMethod (ft : GoE) : Except String String :=
  fpWrite "\x22github.com/owner/repo\x22" ft .funcSig

/-- Renaming of the method's parameter and result names: `σ` applied to the
name lists of the top-level `funcT`'s two field lists.  (Parameter names occur
only in these lists; `writeParams` copies each field's type `max 1 (len
names)` times and never writes the names themselves.) -/
def renameFL (f : String → String) : GoE → GoE
  | .fcons names tag typ rest => .fcons (names.map f) tag typ (renameFL f rest)
  | e => e

def renameParams (f : String → String) : GoE → GoE
  | .funcT p r => .funcT (renameFL f p) (renameFL f r)
  | e => e

theorem numFields_renameFL (f : String → String) :
    ∀ e : GoE, numFields (renameFL f e) = numFields e := by
  intro e
  induction e with
  | fcons names tag typ rest ih2 ih3 =>
    show max 1 (names.map f).length + numFields (renameFL f rest)
       = max 1 names.length + numFields rest
    rw [List.length_map, ih3]
  | _ => rfl

set_option maxHeartbeats 1600000 in
theorem fpWrite_renameFL (qp : String) (f : String → String) :
    ∀ (e : GoE) (b : Bool),
      fpWrite qp (renameFL f e) (.paramsBody b) = fpWrite qp e (.paramsBody b) := by
  intro e
  induction e with
  | fcons names tag typ rest ih2 ih3 =>
    intro b
    show (do
        let s ← fpWrite qp typ .node
        let m := max 1 (names.map f).length
        let items := String.intercalate "," (List.replicate m s)
        let tail ← fpWrite qp (renameFL f rest) (.paramsBody false)
        Except.ok ((if b then "" else ",") ++ items ++ tail))
      = fpWrite qp (.fcons names tag typ rest) (.paramsBody b)
    rw [List.length_map, ih3]
    rfl
  | _ => intro b; rfl

theorem isFnone_renameFL (f : String → String) :
    ∀ e : GoE, isFnone (renameFL f e) = isFnone e := by
  intro e
  cases e <;> rfl

theorem canonMethod_renameParams (f : String → String) (p r : GoE) :
    canonMethod (renameParams f (.funcT p r)) = canonMethod (.funcT p r) := by
  show (do
      let bp ← fpWrite "\x22github.com/owner/repo\x22" (renameFL f p)
        (.paramsBody true)
      let br ← fpWrite "\x22github.com/owner/repo\x22" (renameFL f r)
        (.paramsBody true)
      let pr := !(isFnone (renameFL f r)) &&
        decide (1 < numFields (renameFL f r))
      Except.ok ("(" ++ bp ++ ")" ++ (if pr then "(" ++ br ++ ")" else br)))
    = canonMethod (.funcT p r)
  rw [fpWrite_renameFL, fpWrite_renameFL, numFields_renameFL, isFnone_renameFL]
  rfl

/-! The ten `methodFingerprintTests` fixtures from doc/method_set_test.go,
parsed in package `github.com/owner/repo` with import alias `pkg` bound to
`code.google.com/p/pkg` and `io` imported: identifiers declared nowhere in the
file (`Config`, `Section`, `A`, `B`, …) are unresolved (`Obj == nil`), so the
`writeNode` ident rule prefixes them with the quoted package path; predeclared
type names stay bare. -/

def mft1 : GoE :=
  .funcT (.fcons ["args"] none (.ellipsis (.ifaceT .fnil)) .fnil)
         (.fcons [] none (.ident "error" false) .fnil)

def mft2 : GoE :=
  .funcT (.fcons ["a"] none (.arrN (.ident "byte" false))
          (.fcons ["b"] none (.arrL (.lit "3") (.ident "int" false))
           (.fcons ["c"] none
             (.mapT (.ident "string" false) (.ifaceT .fnil)) .fnil)))
         .fnone

def mft3 : GoE :=
  .funcT (.fcons ["a"] none
           (.arrL (.binop (.lit "2") "+"
                    (.sel (some "\x22code.google.com/p/pkg\x22") "Const"))
                  (.ident "byte" false)) .fnil)
         .fnone

def mft4 : GoE :=
  .funcT (.fcons ["c"] none (.star (.ident "Config" false)) .fnil)
         (.fcons ["d"] none (.star (.ident "Config" false))
          (.fcons ["err"] none (.ident "error" false) .fnil))

def mft5 : GoE :=
  .funcT (.fcons ["a"] none (.chanT .both (.ident "int" false))
          (.fcons ["b"] none (.chanT .recv (.ident "int" false))
           (.fcons ["c"] none (.chanT .send (.ident "int" false)) .fnil)))
         .fnone

def mft6 : GoE :=
  .funcT (.fcons ["a"] none
           (.ifaceT (.fcons [] none (.sel (some "\x22io\x22") "Reader") .fnil))
          (.fcons ["b"] none
            (.ifaceT (.fcons ["Hello"] none
              (.funcT .fnil (.fcons [] none (.ident "string" false) .fnil))
              .fnil)) .fnil))
         .fnone

def mft7 : GoE :=
  .funcT (.fcons ["a"] none
           (.structT
             (.fcons [] none (.sel (some "\x22code.google.com/p/pkg\x22") "Config")
              (.fcons [] none (.ident "Section" false)
               (.fcons ["a"] none (.ident "int" false)
                (.fcons ["b"] (some "\x22tag\x22") (.ident "int" false) .fnil)))))
           .fnil)
         .fnone

def mft8 : GoE :=
  .funcT (.fcons ["a"] none
           (.structT (.fcons [] none (.star (.ident "Section" false)) .fnil))
           .fnil)
         .fnone

def mft9 : GoE :=
  .funcT (.fcons ["functions"] none
           (.ellipsis (.funcT (.fcons [] none (.ident "A" false) .fnil)
                              (.fcons [] none (.ident "int" false) .fnil)))
           .fnil)
         (.fcons [] none
           (.funcT (.fcons [] none (.ident "B" false) .fnil)
                   (.fcons [] none (.ident "int" false) .fnil)) .fnil)

def mft10 : GoE :=
  .funcT .fnil (.fcons [] none (.ident "string" false) .fnil)

/-- **C8**: for methods parsed in package "github.com/owner/repo" with alias
`pkg` bound to "code.google.com/p/pkg", the canonical signature omits
parameter names, preserves ellipsis, parenthesizes the result tuple only when
it has more than one element, prefixes local identifiers with the quoted
package path and rewrites selectors through the alias's quoted path — all ten
`methodFingerprintTests` fixtures produce their expected strings — and
canonicalization is invariant under renaming of the method's parameter and
result names and deterministic. -/
theorem canonicalSignature_vectors :
    canonMethod mft1 = .ok "(...interface\x7b\x7d)error" ∧
    canonMethod mft2 = .ok "([]byte,[3]int,map[string]interface\x7b\x7d)" ∧
    canonMethod mft3 = .ok "([2+\x22code.google.com/p/pkg\x22.Const]byte)" ∧
    canonMethod mft4 =
      .ok "(*\x22github.com/owner/repo\x22.Config)(*\x22github.com/owner/repo\x22.Config,error)" ∧
    canonMethod mft5 = .ok "(chan int,<-chan int,chan<- int)" ∧
    canonMethod mft6 =
      .ok "(interface\x7b\x22io\x22.Reader\x7d,interface\x7bHello()string\x7d)" ∧
    canonMethod mft7 =
      .ok "(struct\x7b\x22code.google.com/p/pkg\x22.Config;\x22github.com/owner/repo\x22.Section;a int;b int \x22tag\x22\x7d)" ∧
    canonMethod mft8 =
      .ok "(struct\x7b*\x22github.com/owner/repo\x22.Section\x7d)" ∧
    canonMethod mft9 =
      .ok "(...func(\x22github.com/owner/repo\x22.A)int)func(\x22github.com/owner/repo\x22.B)int" ∧
    canonMethod mft10 = .ok "()string" ∧
    (∀ (f : String → String) (p r : GoE),
      canonMethod (renameParams f (.funcT p r)) = canonMethod (.funcT p r)) ∧
    (∀ (e : GoE) (s1 s2 : String),
      canonMethod e = .ok s1 → canonMethod e = .ok s2 → s1 = s2) := by
  refine ⟨rfl, rfl, rfl, rfl, rfl, rfl, rfl, rfl, rfl, rfl, ?_, ?_⟩
  · intro f p r
    exact canonMethod_renameParams f p r
  · intro e s1 s2 h1 h2
    rw [h1] at h2
    injection h2

theorem canonicalSignature_vectors_witness :
    ("()string" : String) = "()string" :=
  canonicalSignature_vectors.2.2.2.2.2.2.2.2.2.2.2 mft10 "()string" "()string"
    rfl rfl

/-! ### C9: printDecl annotation spans (doc/path_test.go) -/

inductive TokKind where
  | ident | comment | other
deriving DecidableEq

/-- A token from the `go/scanner` pass over the printed declaration: byte
offset, literal length, and whether it is an IDENT, a COMMENT, or anything
else (ignored by the loop). -/
structure Tok where
  pos : Nat
  len : Nat
  kind : TokKind
deriving DecidableEq

/-- A queued visitor annotation (`v.annotations` entry before positions are
filled in): `Kind` (with -1 for `ignoreName`) and `PathIndex`. -/
structure VAnn where
  kind : Int
  pathIndex : Int
deriving DecidableEq

/-- A produced annotation with filled-in half-open span.  Kinds follow the
source iota: ExportLink = 0, Anchor = 1, Comment = 2, PackageLink = 3,
Builtin = 4. -/
structure OutAnn where
  pos : Nat
  end_ : Nat
  kind : Int
  pathIndex : Int
deriving DecidableEq

/-- The scanner loop of `printDecl` (path_test.go): comments become comment
annotations over their literal span; each IDENT consumes the head of the
visitor queue (breaking out if the queue is empty, skipping kind -1), fills in
the token's span, and merges with the previous annotation when that one is a
package link with the same path index ending exactly one byte earlier (the
selector dot).  The accumulator is kept newest-first and reversed on exit. -/
def annLoop : List Tok → List VAnn → List OutAnn → List OutAnn
  | [], _, acc => acc.reverse
  | t :: ts, q, acc =>
    match t.kind with
    | .comment => annLoop ts q (⟨t.pos, t.pos + t.len, 2, 0⟩ :: acc)
    | .other => annLoop ts q acc
    | .ident =>
      match q with
      | [] => acc.reverse
      | a :: q2 =>
        if a.kind = -1 then annLoop ts q2 acc
        else
          match acc with
          | prev :: rest =>
            if a.kind = 0 ∧ prev.kind = 3 ∧ prev.pathIndex = a.pathIndex ∧
               prev.end_ + 1 = t.pos then
              annLoop ts q2
                (⟨prev.pos, t.pos + t.len, a.kind, a.pathIndex⟩ :: rest)
            else
              annLoop ts q2 (⟨t.pos, t.pos + t.len, a.kind, a.pathIndex⟩ :: acc)
          | [] => annLoop ts q2 (⟨t.pos, t.pos + t.len, a.kind, a.pathIndex⟩ :: acc)

def printDeclAnns (toks : List Tok) (q : List VAnn) : List OutAnn :=
  annLoop toks q []


theorem annLoop_inv :
    ∀ (toks : List Tok) (q : List VAnn) (acc : List OutAnn),
      toks.Pairwise (fun t u => t.pos + t.len ≤ u.pos) →
      (∀ t ∈ toks, 1 ≤ t.len) →
      (∀ a ∈ acc, a.pos < a.end_) →
      acc.Pairwise (fun a b => b.end_ ≤ a.pos) →
      (∀ a ∈ acc, ∀ t ∈ toks, a.end_ ≤ t.pos) →
      (∀ a ∈ annLoop toks q acc, a.pos < a.end_) ∧
      (annLoop toks q acc).Pairwise (fun a b => a.end_ ≤ b.pos) := by
  intro toks
  induction toks with
  | nil =>
    intro q acc _ _ hlt hpw _
    refine ⟨?_, List.pairwise_reverse.mpr hpw⟩
    intro a ha
    exact hlt a (List.mem_reverse.mp ha)
  | cons t ts ih =>
    intro q acc hs hl hlt hpw hsep
    rw [List.pairwise_cons] at hs
    obtain ⟨hpos, hs2⟩ := hs
    have hl2 : ∀ u ∈ ts, 1 ≤ u.len := fun u hu => hl u (List.mem_cons_of_mem _ hu)
    have hlen : 1 ≤ t.len := hl t (List.mem_cons_self _ _)
    cases hk : t.kind with
    | comment =>
      have hred : annLoop (t :: ts) q acc
          = annLoop ts q (⟨t.pos, t.pos + t.len, 2, 0⟩ :: acc) := by
        simp [annLoop, hk]
      rw [hred]
      apply ih q (⟨t.pos, t.pos + t.len, 2, 0⟩ :: acc) hs2 hl2
      · intro a ha
        rcases List.mem_cons.mp ha with h | h
        · rw [h]
          show t.pos < t.pos + t.len
          omega
        · exact hlt a h
      · rw [List.pairwise_cons]
        exact ⟨fun b hb => hsep b hb t (List.mem_cons_self _ _), hpw⟩
      · intro a ha u hu
        rcases List.mem_cons.mp ha with h | h
        · rw [h]
          show t.pos + t.len ≤ u.pos
          exact hpos u hu
        · exact hsep a h u (List.mem_cons_of_mem _ hu)
    | other =>
      have hred : annLoop (t :: ts) q acc = annLoop ts q acc := by
        simp [annLoop, hk]
      rw [hred]
      exact ih q acc hs2 hl2 hlt hpw
        (fun a ha u hu => hsep a ha u (List.mem_cons_of_mem _ hu))
    | ident =>
      cases q with
      | nil =>
        have hred : annLoop (t :: ts) [] acc = acc.reverse := by
          simp [annLoop, hk]
        rw [hred]
        refine ⟨?_, List.pairwise_reverse.mpr hpw⟩
        intro a ha
        exact hlt a (List.mem_reverse.mp ha)
      | cons a q2 =>
        by_cases hneg : a.kind = -1
        · have hred : annLoop (t :: ts) (a :: q2) acc = annLoop ts q2 acc := by
            simp [annLoop, hk, hneg]
          rw [hred]
          exact ih q2 acc hs2 hl2 hlt hpw
            (fun b hb u hu => hsep b hb u (List.mem_cons_of_mem _ hu))
        · cases acc with
          | nil =>
            have hred : annLoop (t :: ts) (a :: q2) []
                = annLoop ts q2 [⟨t.pos, t.pos + t.len, a.kind, a.pathIndex⟩] := by
              simp [annLoop, hk, hneg]
            rw [hred]
            apply ih q2 _ hs2 hl2
            · intro b hb
              rcases List.mem_cons.mp hb with h | h
              · rw [h]
                show t.pos < t.pos + t.len
                omega
              · cases h
            · exact List.pairwise_singleton _ _
            · intro b hb u hu
              rcases List.mem_cons.mp hb with h | h
              · rw [h]
                show t.pos + t.len ≤ u.pos
                exact hpos u hu
              · cases h
          | cons prev rest =>
            rw [List.pairwise_cons] at hpw
            obtain ⟨hprevrest, hpw2⟩ := hpw
            by_cases hm : a.kind = 0 ∧ prev.kind = 3 ∧
                prev.pathIndex = a.pathIndex ∧ prev.end_ + 1 = t.pos
            · have hred : annLoop (t :: ts) (a :: q2) (prev :: rest)
                  = annLoop ts q2
                      (⟨prev.pos, t.pos + t.len, a.kind, a.pathIndex⟩ :: rest) := by
                simp [annLoop, hk, hneg, hm]
              rw [hred]
              have hprevlt : prev.pos < prev.end_ :=
                hlt prev (List.mem_cons_self _ _)
              have hgap : prev.end_ + 1 = t.pos := hm.2.2.2
              apply ih q2 _ hs2 hl2
              · intro b hb
                rcases List.mem_cons.mp hb with h | h
                · rw [h]
                  show prev.pos < t.pos + t.len
                  omega
                · exact hlt b (List.mem_cons_of_mem _ h)
              · rw [List.pairwise_cons]
                refine ⟨?_, hpw2⟩
                intro b hb
                show b.end_ ≤ prev.pos
                exact hprevrest b hb
              · intro b hb u hu
                rcases List.mem_cons.mp hb with h | h
                · rw [h]
                  show t.pos + t.len ≤ u.pos
                  exact hpos u hu
                · exact hsep b (List.mem_cons_of_mem _ h) u
                    (List.mem_cons_of_mem _ hu)
            · have hred : annLoop (t :: ts) (a :: q2) (prev :: rest)
                  = annLoop ts q2
                      (⟨t.pos, t.pos + t.len, a.kind, a.pathIndex⟩ ::
                        prev :: rest) := by
                simp [annLoop, hk, hneg, hm]
              rw [hred]
              apply ih q2 _ hs2 hl2
              · intro b hb
                rcases List.mem_cons.mp hb with h | h
                · rw [h]
                  show t.pos < t.pos + t.len
                  omega
                · exact hlt b h
              · rw [List.pairwise_cons]
                refine ⟨?_, ?_⟩
                · intro b hb
                  show b.end_ ≤ t.pos
                  exact hsep b hb t (List.mem_cons_self _ _)
                · rw [List.pairwise_cons]
                  exact ⟨hprevrest, hpw2⟩
              · intro b hb u hu
                rcases List.mem_cons.mp hb with h | h
                · rw [h]
                  show t.pos + t.len ≤ u.pos
                  exact hpos u hu
                · exact hsep b h u (List.mem_cons_of_mem _ hu)

/-- **C9**: annotation spans produced by printDecl's scanner loop are
half-open non-empty byte ranges, non-overlapping and sorted by position
(given that the scanner's tokens are themselves sorted, non-overlapping and
non-empty); and a packageLink annotation immediately followed by an
exportLink ident on the same path index is merged into one exportLink
covering both spans exactly when the ident starts one byte after the
packageLink ends (the selector dot) — not at a zero gap as claimed. -/
theorem printDecl_span_invariants
    (toks : List Tok) (q : List VAnn)
    (hsort : toks.Pairwise (fun t u => t.pos + t.len ≤ u.pos))
    (hlen : ∀ t ∈ toks, 1 ≤ t.len) :
    (∀ a ∈ printDeclAnns toks q, a.pos < a.end_) ∧
    (printDeclAnns toks q).Pairwise (fun a b => a.end_ ≤ b.pos) ∧
    (∀ (t : Tok) (ts : List Tok) (q2 : List VAnn) (a : VAnn)
       (prev : OutAnn) (rest : List OutAnn),
      t.kind = .ident → a.kind = 0 → prev.kind = 3 →
      prev.pathIndex = a.pathIndex →
      annLoop (t :: ts) (a :: q2) (prev :: rest) =
        if prev.end_ + 1 = t.pos then
          annLoop ts q2 (⟨prev.pos, t.pos + t.len, 0, a.pathIndex⟩ :: rest)
        else
          annLoop ts q2
            (⟨t.pos, t.pos + t.len, 0, a.pathIndex⟩ :: prev :: rest)) := by
  have hbase := annLoop_inv toks q [] hsort hlen
    (by intro a ha; cases ha) List.Pairwise.nil (by intro a ha; cases ha)
  refine ⟨hbase.1, hbase.2, ?_⟩
  intro t ts q2 a prev rest h1 h2 h3 h4
  have hneg : ¬(a.kind = -1) := by
    rw [h2]
    decide
  by_cases hg : prev.end_ + 1 = t.pos
  · rw [if_pos hg]
    simp [annLoop, h1, hneg, h2, h3, h4, hg]
  · rw [if_neg hg]
    simp [annLoop, h1, hneg, h2, h3, h4, hg]

theorem printDecl_span_invariants_witness :
    (printDeclAnns [⟨0, 3, .ident⟩, ⟨4, 4, .ident⟩]
      [⟨3, 0⟩, ⟨0, 0⟩]).Pairwise (fun a b => a.end_ ≤ b.pos) :=
  (printDecl_span_invariants [⟨0, 3, .ident⟩, ⟨4, 4, .ident⟩] [⟨3, 0⟩, ⟨0, 0⟩]
    (by decide) (by decide)).2.1

/-- Counterexample to the claimed zero-gap merge rule: with the queue holding
a packageLink (kind 3) then an exportLink (kind 0) on path index 0, ident
tokens `[0,3)` and `[4,8)` — one byte apart, the selector dot — ARE merged
into a single exportLink `[0,8)`, while zero-gap ident tokens `[0,3)` and
`[3,7)` are NOT merged, contradicting the claim in both directions. -/
theorem printDecl_zero_gap_counterexample :
    printDeclAnns [⟨0, 3, .ident⟩, ⟨4, 4, .ident⟩] [⟨3, 0⟩, ⟨0, 0⟩]
      = [⟨0, 8, 0, 0⟩] ∧
    printDeclAnns [⟨0, 3, .ident⟩, ⟨3, 4, .ident⟩] [⟨3, 0⟩, ⟨0, 0⟩]
      = [⟨0, 3, 3, 0⟩, ⟨3, 7, 0, 0⟩] := by
  decide
